import Mathlib

/-!
Verification of the hatch_generator repository (src/main.cpp).

The program generates a directional hatch fill for an axis-aligned rectangle:
candidate lines are enumerated by angle and step, clipped by the
Cohen–Sutherland algorithm (`computeOutCode`, `clipLine`), and collected into
a hatch pattern (the generation code in `main`).

The C++ source works on `double`; we embed it over an arbitrary linear
ordered field `K`, instantiated at `ℚ` for concrete computations and at `ℝ`
for the trigonometric direction vectors of the general (non-axis-aligned)
branch.  The C++ `while (true)` clip loop is embedded with an explicit fuel
parameter; the termination theorem shows that fuel 5 (at most 4 trim steps
plus a final accept/reject check) always suffices for a valid rectangle, so
`clipLine` runs the loop with fuel 5.
-/

section Defs

variable {K : Type} [LinearOrderedField K]

/-- `struct Point_2 { double x; double y; }` from src/main.cpp. -/
structure Point_2 (K : Type) where
  x : K
  y : K
deriving DecidableEq

/-- `struct Line_2 { Point_2 start; Point_2 end; }` from src/main.cpp
(the field `end` is a Lean keyword, renamed `endPt`). -/
structure Line_2 (K : Type) where
  start : Point_2 K
  endPt : Point_2 K
deriving DecidableEq

/-- `computeOutCode` from src/main.cpp.  The outcode bits are the C++ enum
`OutCode { INSIDE = 0, LEFT = 1, RIGHT = 2, BOTTOM = 4, TOP = 8 }`:

    int code = INSIDE;
    if (x < bottomLeft.x) code |= LEFT;
    else if (x > topRight.x) code |= RIGHT;
    if (y < bottomLeft.y) code |= BOTTOM;
    else if (y > topRight.y) code |= TOP;
-/
def computeOutCode (x y : K) (bottomLeft topRight : Point_2 K) : Nat :=
  (if x < bottomLeft.x then 1 else if x > topRight.x then 2 else 0) |||
    (if y < bottomLeft.y then 4 else if y > topRight.y then 8 else 0)

/-- The trim step in the `else` branch of the clip loop of `clipLine`
(src/main.cpp lines 123–142): pick the edge to clip against by testing the
bits of `outcodeOut` in the order TOP (8), BOTTOM (4), RIGHT (2), LEFT (1),
and interpolate the corrected point `(x, y)`. -/
def trimPoint (x0 y0 x1 y1 : K) (bottomLeft topRight : Point_2 K) (outcodeOut : Nat) : K × K :=
  if outcodeOut &&& 8 ≠ 0 then      -- TOP
    (x0 + (x1 - x0) * (topRight.y - y0) / (y1 - y0), topRight.y)
  else if outcodeOut &&& 4 ≠ 0 then -- BOTTOM
    (x0 + (x1 - x0) * (bottomLeft.y - y0) / (y1 - y0), bottomLeft.y)
  else if outcodeOut &&& 2 ≠ 0 then -- RIGHT
    (topRight.x, y0 + (y1 - y0) * (topRight.x - x0) / (x1 - x0))
  else                              -- LEFT
    (bottomLeft.x, y0 + (y1 - y0) * (bottomLeft.x - x0) / (x1 - x0))

/-- `int outcodeOut = outcode0 ? outcode0 : outcode1;` from src/main.cpp. -/
def pickOutCode (outcode0 outcode1 : Nat) : Nat :=
  if outcode0 ≠ 0 then outcode0 else outcode1

/-- Result of the clip loop: either both endpoints were (possibly after
trimming) inside the rectangle, or the line was fully outside. -/
inductive ClipResult (K : Type) where
  | accepted : K → K → K → K → ClipResult K
  | rejected : ClipResult K
deriving DecidableEq

/-- The `while (true)` loop of `clipLine` (src/main.cpp lines 115–153),
with an explicit fuel parameter: `none` models non-termination within the
given fuel.  Each iteration either accepts (both outcodes `INSIDE`), rejects
(the outcodes share a set bit), or trims the endpoint selected by
`pickOutCode` and recomputes its outcode. -/
def clipLoop (bottomLeft topRight : Point_2 K) : Nat → K → K → K → K → Option (ClipResult K)
  | 0, _, _, _, _ => none
  | n + 1, x0, y0, x1, y1 =>
    if computeOutCode x0 y0 bottomLeft topRight ||| computeOutCode x1 y1 bottomLeft topRight = 0 then
      some (ClipResult.accepted x0 y0 x1 y1)
    else if computeOutCode x0 y0 bottomLeft topRight &&& computeOutCode x1 y1 bottomLeft topRight ≠ 0 then
      some ClipResult.rejected
    else if pickOutCode (computeOutCode x0 y0 bottomLeft topRight) (computeOutCode x1 y1 bottomLeft topRight)
        = computeOutCode x0 y0 bottomLeft topRight then
      clipLoop bottomLeft topRight n
        (trimPoint x0 y0 x1 y1 bottomLeft topRight
          (pickOutCode (computeOutCode x0 y0 bottomLeft topRight) (computeOutCode x1 y1 bottomLeft topRight))).1
        (trimPoint x0 y0 x1 y1 bottomLeft topRight
          (pickOutCode (computeOutCode x0 y0 bottomLeft topRight) (computeOutCode x1 y1 bottomLeft topRight))).2
        x1 y1
    else
      clipLoop bottomLeft topRight n x0 y0
        (trimPoint x0 y0 x1 y1 bottomLeft topRight
          (pickOutCode (computeOutCode x0 y0 bottomLeft topRight) (computeOutCode x1 y1 bottomLeft topRight))).1
        (trimPoint x0 y0 x1 y1 bottomLeft topRight
          (pickOutCode (computeOutCode x0 y0 bottomLeft topRight) (computeOutCode x1 y1 bottomLeft topRight))).2

/-- `bool clipLine(Line_2& line, ...)` from src/main.cpp (lines 107–161).
The loop runs with fuel 5, which the termination theorem shows is always
enough for a valid rectangle.  On acceptance the line is overwritten with
the trimmed endpoints and `true` is returned; on rejection the line is left
untouched and `false` is returned.  `none` models a non-terminating loop
(possible only for an invalid rectangle). -/
def clipLine (line : Line_2 K) (bottomLeft topRight : Point_2 K) : Option (Bool × Line_2 K) :=
  match clipLoop bottomLeft topRight 5 line.start.x line.start.y line.endPt.x line.endPt.y with
  | some (ClipResult.accepted x0 y0 x1 y1) => some (true, ⟨⟨x0, y0⟩, ⟨x1, y1⟩⟩)
  | some ClipResult.rejected => some (false, line)
  | none => none

/-- Number of outcode bits (LEFT, RIGHT, BOTTOM, TOP) set in an outcode;
the termination measure of the clip loop. -/
def bitCount4 (n : Nat) : Nat :=
  (if n.testBit 0 then 1 else 0) + (if n.testBit 1 then 1 else 0) +
    (if n.testBit 2 then 1 else 0) + (if n.testBit 3 then 1 else 0)

variable [FloorRing K]

/-- `std::fmod(angleDegrees, 360.0)` from src/main.cpp line 196, modeled
exactly: `fmod(x, m) = x - m * trunc(x / m)` where `trunc` rounds toward
zero (so the result carries the sign of `x`). -/
def fmod360 (x : K) : K :=
  x - 360 * ((if x / 360 < 0 then ⌈x / 360⌉ else ⌊x / 360⌋ : ℤ) : K)

/-- Angle normalization from src/main.cpp lines 196–197:

    angleDegrees = std::fmod(angleDegrees, 360.0);
    if (angleDegrees < 0) angleDegrees += 360.0;
-/
def normalizeAngle (x : K) : K :=
  if fmod360 x < 0 then fmod360 x + 360 else fmod360 x

/-- The horizontal-line loop of the `angleDegrees == 0 || angleDegrees == 360`
branch (src/main.cpp lines 213–215), with fuel:

    for (double y = bottomLeft.y; y <= topRight.y; y += step)
      hatchLines.push_back({ {bottomLeft.x, y}, {topRight.x, y} });
-/
def horizUp (blx trx ty step : K) : Nat → K → List (Line_2 K)
  | 0, _ => []
  | n + 1, y =>
    if y ≤ ty then ⟨⟨blx, y⟩, ⟨trx, y⟩⟩ :: horizUp blx trx ty step n (y + step) else []

/-- The top-down horizontal-line loop of the 180° branch
(src/main.cpp lines 219–221):

    for (double y = topRight.y; y >= bottomLeft.y; y -= step)
      hatchLines.push_back({ {bottomLeft.x, y}, {topRight.x, y} });
-/
def horizDown (blx trx bly step : K) : Nat → K → List (Line_2 K)
  | 0, _ => []
  | n + 1, y =>
    if bly ≤ y then ⟨⟨blx, y⟩, ⟨trx, y⟩⟩ :: horizDown blx trx bly step n (y - step) else []

/-- The vertical-line loop of the 90°/270° branch (src/main.cpp lines 225–227):

    for (double x = bottomLeft.x; x <= topRight.x; x += step)
      hatchLines.push_back({ {x, bottomLeft.y}, {x, topRight.y} });
-/
def vertLoop (bly ty trx step : K) : Nat → K → List (Line_2 K)
  | 0, _ => []
  | n + 1, x =>
    if x ≤ trx then ⟨⟨x, bly⟩, ⟨x, ty⟩⟩ :: vertLoop bly ty trx step n (x + step) else []

/-- Candidate line construction of the general branch
(src/main.cpp lines 231–239): `perp = (-dir.y, dir.x)`, the line is centered
at `center + perp * offset` and extends `± dir * diagonal / 2`. -/
def candidateLine (center dir : Point_2 K) (diagonal offset : K) : Line_2 K :=
  ⟨⟨center.x + -dir.y * offset - dir.x * diagonal / 2,
    center.y + dir.x * offset - dir.y * diagonal / 2⟩,
   ⟨center.x + -dir.y * offset + dir.x * diagonal / 2,
    center.y + dir.x * offset + dir.y * diagonal / 2⟩⟩

/-- The general-branch offset loop (src/main.cpp lines 230–243), with fuel:
for each `offset` from `-diagonal/2` to `diagonal/2` in steps of `step`,
clip the candidate line and keep it only when `clipLine` returns `true`. -/
def genLoop (bl tr center dir : Point_2 K) (diagonal step : K) : Nat → K → List (Line_2 K)
  | 0, _ => []
  | n + 1, offset =>
    if offset ≤ diagonal / 2 then
      match clipLine (candidateLine center dir diagonal offset) bl tr with
      | some (true, l) => l :: genLoop bl tr center dir diagonal step n (offset + step)
      | _ => genLoop bl tr center dir diagonal step n (offset + step)
    else []

/-- The hatch generation of `main` (src/main.cpp lines 191–244), abstracted
over the rectangle (the source hard-codes `(0,0)-(20,10)`) and over the
direction vector `dir = (cos angleRadians, sin angleRadians)` and the
`diagonal` length, which the source computes with floating `cos`/`sin`/`sqrt`
(instantiated exactly at `K = ℝ` by `generateHatchLinesReal`).  The `step ≤ 0`
check is the error exit of `main` (lines 191–194); the branch structure on the
normalized angle and the loop bodies mirror lines 211–244.  Loop fuels are
chosen large enough that every loop stops by its own guard. -/
def generateHatchLines (bl tr : Point_2 K) (angleDegrees step : K)
    (dir : Point_2 K) (diagonal : K) : Except String (List (Line_2 K)) :=
  if step ≤ 0 then Except.error ("step must be greater than zero")
  else if normalizeAngle angleDegrees = 0 ∨ normalizeAngle angleDegrees = 360 then
    Except.ok (horizUp bl.x tr.x tr.y step (⌊(tr.y - bl.y) / step⌋ + 2).toNat bl.y)
  else if normalizeAngle angleDegrees = 180 ∨ normalizeAngle angleDegrees = -180 then
    Except.ok (horizDown bl.x tr.x bl.y step (⌊(tr.y - bl.y) / step⌋ + 2).toNat tr.y)
  else if normalizeAngle angleDegrees = 90 ∨ normalizeAngle angleDegrees = -90 ∨
      normalizeAngle angleDegrees = 270 ∨ normalizeAngle angleDegrees = -270 then
    Except.ok (vertLoop bl.y tr.y tr.x step (⌊(tr.x - bl.x) / step⌋ + 2).toNat bl.x)
  else
    Except.ok (genLoop bl tr ⟨(bl.x + tr.x) / 2, (bl.y + tr.y) / 2⟩ dir diagonal step
      (⌊diagonal / step⌋ + 2).toNat (-(diagonal / 2)))

/-- `degreesToRadians` from src/main.cpp line 66. -/
noncomputable def degreesToRadians (degrees : ℝ) : ℝ := degrees * Real.pi / 180

/-- The full generation of `main` over `ℝ`: the direction vector and the
rectangle diagonal are computed exactly as in src/main.cpp lines 199–208,
with real `cos`, `sin` and `sqrt` in place of their floating versions. -/
noncomputable def generateHatchLinesReal (bl tr : Point_2 ℝ) (angleDegrees step : ℝ) :
    Except String (List (Line_2 ℝ)) :=
  generateHatchLines bl tr angleDegrees step
    ⟨Real.cos (degreesToRadians (normalizeAngle angleDegrees)),
      Real.sin (degreesToRadians (normalizeAngle angleDegrees))⟩
    (Real.sqrt ((tr.x - bl.x) * (tr.x - bl.x) + (tr.y - bl.y) * (tr.y - bl.y)))

end Defs

section OutCodeLemmas

variable {K : Type} [LinearOrderedField K]
variable {bl tr : Point_2 K}

theorem computeOutCode_lt_16 (x y : K) : computeOutCode x y bl tr < 16 := by
  unfold computeOutCode
  split_ifs <;> decide

theorem testBit0_outCode (x y : K) :
    (computeOutCode x y bl tr).testBit 0 = true ↔ x < bl.x := by
  unfold computeOutCode
  split_ifs <;> first
    | exact iff_of_true (by decide) (by assumption)
    | exact iff_of_false (by decide) (by intro hc; linarith)

theorem testBit1_outCode (x y : K) :
    (computeOutCode x y bl tr).testBit 1 = true ↔ ¬x < bl.x ∧ tr.x < x := by
  unfold computeOutCode
  split_ifs <;> first
    | exact iff_of_true (by decide) (by constructor <;> assumption)
    | exact iff_of_false (by decide) (by rintro ⟨a, b⟩; linarith)

theorem testBit2_outCode (x y : K) :
    (computeOutCode x y bl tr).testBit 2 = true ↔ y < bl.y := by
  unfold computeOutCode
  split_ifs <;> first
    | exact iff_of_true (by decide) (by assumption)
    | exact iff_of_false (by decide) (by intro hc; linarith)

theorem testBit3_outCode (x y : K) :
    (computeOutCode x y bl tr).testBit 3 = true ↔ ¬y < bl.y ∧ tr.y < y := by
  unfold computeOutCode
  split_ifs <;> first
    | exact iff_of_true (by decide) (by constructor <;> assumption)
    | exact iff_of_false (by decide) (by rintro ⟨a, b⟩; linarith)

theorem outCode_eq_zero (x y : K) :
    computeOutCode x y bl tr = 0 ↔ bl.x ≤ x ∧ x ≤ tr.x ∧ bl.y ≤ y ∧ y ≤ tr.y := by
  unfold computeOutCode
  split_ifs <;> first
    | exact iff_of_true (by decide) (by refine ⟨?_, ?_, ?_, ?_⟩ <;> linarith)
    | exact iff_of_false (by decide) (by rintro ⟨a, b, c, d⟩; linarith)

end OutCodeLemmas

section BitLemmas

theorem lor_lt_16 : ∀ a < 16, ∀ b < 16, a ||| b < 16 := by decide

theorem bitCount4_le_4 : ∀ u < 16, bitCount4 u ≤ 4 := by decide

theorem bitCount4_lt_of_strict_subset :
    ∀ u < 16, ∀ u' < 16,
      (∀ i < 4, u'.testBit i = true → u.testBit i = true) →
      (∃ i, i < 4 ∧ u.testBit i = true ∧ u'.testBit i = false) →
      bitCount4 u' < bitCount4 u := by decide

theorem land_eight_ne : ∀ a < 16, (a &&& 8 ≠ 0 ↔ a.testBit 3 = true) := by decide

theorem land_four_ne : ∀ a < 16, (a &&& 4 ≠ 0 ↔ a.testBit 2 = true) := by decide

theorem land_two_ne : ∀ a < 16, (a &&& 2 ≠ 0 ↔ a.testBit 1 = true) := by decide

theorem land_one_ne : ∀ a < 16, (a &&& 1 ≠ 0 ↔ a.testBit 0 = true) := by decide

theorem land_eq_zero_iff_16 :
    ∀ a < 16, ∀ b < 16,
      (a &&& b = 0 ↔ ∀ i < 4, ¬(a.testBit i = true ∧ b.testBit i = true)) := by decide

theorem lor_eq_zero_iff_16 :
    ∀ a < 16, ∀ b < 16, (a ||| b = 0 ↔ a = 0 ∧ b = 0) := by decide

theorem eq_zero_iff_testBit_16 :
    ∀ a < 16, (a = 0 ↔ ∀ i < 4, a.testBit i = false) := by decide

end BitLemmas

section InterpLemmas

variable {K : Type} [LinearOrderedField K]

/-- The interpolation parameter `(e - y0) / (y1 - y0)` lies in `[0, 1]`
whenever the edge coordinate `e` lies between `y0` and `y1`. -/
theorem interp_param_unit {y0 y1 e : K}
    (hbound : (y0 ≤ e ∧ e ≤ y1) ∨ (y1 ≤ e ∧ e ≤ y0)) (hne : y0 ≠ y1) :
    0 ≤ (e - y0) / (y1 - y0) ∧ (e - y0) / (y1 - y0) ≤ 1 := by
  rcases lt_or_gt_of_ne hne with hlt | hgt
  · have hd : 0 < y1 - y0 := by linarith
    rcases hbound with ⟨h1, h2⟩ | ⟨h1, h2⟩
    · constructor
      · exact div_nonneg (by linarith) (by linarith)
      · rw [div_le_one hd]; linarith
    · constructor
      · exact div_nonneg (by linarith) (by linarith)
      · rw [div_le_one hd]; linarith
  · have hd : 0 < y0 - y1 := by linarith
    have hrw : (e - y0) / (y1 - y0) = (y0 - e) / (y0 - y1) := by
      rw [show y0 - e = -(e - y0) by ring, show y0 - y1 = -(y1 - y0) by ring,
        neg_div_neg_eq]
    rw [hrw]
    rcases hbound with ⟨h1, h2⟩ | ⟨h1, h2⟩
    · constructor
      · exact div_nonneg (by linarith) (by linarith)
      · rw [div_le_one hd]; linarith
    · constructor
      · exact div_nonneg (by linarith) (by linarith)
      · rw [div_le_one hd]; linarith

/-- A convex combination `x0 + (x1 - x0) * t` with `t ∈ [0, 1]` can violate a
bound only if one of `x0`, `x1` violates it. -/
theorem convex_bounds {x0 x1 t c : K} (h0 : 0 ≤ t) (h1 : t ≤ 1) :
    (x0 + (x1 - x0) * t < c → x0 < c ∨ x1 < c) ∧
      (c < x0 + (x1 - x0) * t → c < x0 ∨ c < x1) := by
  constructor
  · intro h
    by_contra hc
    push_neg at hc
    nlinarith [mul_nonneg h0 (sub_nonneg.mpr hc.2), mul_nonneg (sub_nonneg.mpr h1) (sub_nonneg.mpr hc.1)]
  · intro h
    by_contra hc
    push_neg at hc
    nlinarith [mul_nonneg h0 (sub_nonneg.mpr hc.2), mul_nonneg (sub_nonneg.mpr h1) (sub_nonneg.mpr hc.1)]

end InterpLemmas

section ClipLoopLemmas

variable {K : Type} [LinearOrderedField K]
variable {bl tr : Point_2 K}

theorem clipLoop_succ (n : Nat) (x0 y0 x1 y1 : K) :
    clipLoop bl tr (n + 1) x0 y0 x1 y1 =
      if computeOutCode x0 y0 bl tr ||| computeOutCode x1 y1 bl tr = 0 then
        some (ClipResult.accepted x0 y0 x1 y1)
      else if computeOutCode x0 y0 bl tr &&& computeOutCode x1 y1 bl tr ≠ 0 then
        some ClipResult.rejected
      else if pickOutCode (computeOutCode x0 y0 bl tr) (computeOutCode x1 y1 bl tr)
          = computeOutCode x0 y0 bl tr then
        clipLoop bl tr n
          (trimPoint x0 y0 x1 y1 bl tr
            (pickOutCode (computeOutCode x0 y0 bl tr) (computeOutCode x1 y1 bl tr))).1
          (trimPoint x0 y0 x1 y1 bl tr
            (pickOutCode (computeOutCode x0 y0 bl tr) (computeOutCode x1 y1 bl tr))).2
          x1 y1
      else
        clipLoop bl tr n x0 y0
          (trimPoint x0 y0 x1 y1 bl tr
            (pickOutCode (computeOutCode x0 y0 bl tr) (computeOutCode x1 y1 bl tr))).1
          (trimPoint x0 y0 x1 y1 bl tr
            (pickOutCode (computeOutCode x0 y0 bl tr) (computeOutCode x1 y1 bl tr))).2 := rfl

theorem clipLoop_accept {x0 y0 x1 y1 : K} (n : Nat)
    (h : computeOutCode x0 y0 bl tr ||| computeOutCode x1 y1 bl tr = 0) :
    clipLoop bl tr (n + 1) x0 y0 x1 y1 = some (ClipResult.accepted x0 y0 x1 y1) := by
  rw [clipLoop_succ, if_pos h]

theorem clipLoop_reject {x0 y0 x1 y1 : K} (n : Nat)
    (h1 : ¬computeOutCode x0 y0 bl tr ||| computeOutCode x1 y1 bl tr = 0)
    (h2 : computeOutCode x0 y0 bl tr &&& computeOutCode x1 y1 bl tr ≠ 0) :
    clipLoop bl tr (n + 1) x0 y0 x1 y1 = some ClipResult.rejected := by
  rw [clipLoop_succ, if_neg h1, if_pos h2]

theorem clipLoop_trim_fst {x0 y0 x1 y1 : K} (n : Nat)
    (h1 : ¬computeOutCode x0 y0 bl tr ||| computeOutCode x1 y1 bl tr = 0)
    (h2 : ¬computeOutCode x0 y0 bl tr &&& computeOutCode x1 y1 bl tr ≠ 0)
    (h3 : computeOutCode x0 y0 bl tr ≠ 0) :
    clipLoop bl tr (n + 1) x0 y0 x1 y1 =
      clipLoop bl tr n
        (trimPoint x0 y0 x1 y1 bl tr (computeOutCode x0 y0 bl tr)).1
        (trimPoint x0 y0 x1 y1 bl tr (computeOutCode x0 y0 bl tr)).2 x1 y1 := by
  have hpick : pickOutCode (computeOutCode x0 y0 bl tr) (computeOutCode x1 y1 bl tr)
      = computeOutCode x0 y0 bl tr := if_pos h3
  rw [clipLoop_succ, if_neg h1, if_neg h2, hpick, if_pos rfl]

theorem clipLoop_trim_snd {x0 y0 x1 y1 : K} (n : Nat)
    (h1 : ¬computeOutCode x0 y0 bl tr ||| computeOutCode x1 y1 bl tr = 0)
    (h2 : ¬computeOutCode x0 y0 bl tr &&& computeOutCode x1 y1 bl tr ≠ 0)
    (h3 : computeOutCode x0 y0 bl tr = 0) :
    clipLoop bl tr (n + 1) x0 y0 x1 y1 =
      clipLoop bl tr n x0 y0
        (trimPoint x0 y0 x1 y1 bl tr (computeOutCode x1 y1 bl tr)).1
        (trimPoint x0 y0 x1 y1 bl tr (computeOutCode x1 y1 bl tr)).2 := by
  have hne1 : computeOutCode x1 y1 bl tr ≠ 0 := by
    intro h0
    exact h1 (by rw [h3, h0]; decide)
  have hpick : pickOutCode (computeOutCode x0 y0 bl tr) (computeOutCode x1 y1 bl tr)
      = computeOutCode x1 y1 bl tr := if_neg (by simp [h3])
  rw [clipLoop_succ, if_neg h1, if_neg h2, hpick, if_neg (by rw [h3]; exact hne1)]

/-- If both outcodes of a returned accepted state were forced to zero by the
loop, both endpoints of the result are inside the rectangle. -/
theorem clipLoop_accepted_outcodes {x0 y0 x1 y1 a b c d : K} :
    ∀ n, clipLoop bl tr n x0 y0 x1 y1 = some (ClipResult.accepted a b c d) →
      computeOutCode a b bl tr = 0 ∧ computeOutCode c d bl tr = 0 := by
  intro n
  induction n generalizing x0 y0 x1 y1 with
  | zero => intro h; exact absurd h (by simp [clipLoop])
  | succ n ih =>
    intro h
    unfold clipLoop at h
    split_ifs at h with hor hand hpick
    · obtain ⟨rfl, rfl, rfl, rfl⟩ : x0 = a ∧ y0 = b ∧ x1 = c ∧ y1 = d := by
        injection h with h'
        injection h' with e1 e2 e3 e4
        exact ⟨e1, e2, e3, e4⟩
      have h00 := (lor_eq_zero_iff_16 _ (computeOutCode_lt_16 x0 y0) _ (computeOutCode_lt_16 x1 y1)).mp hor
      exact h00
    · exact absurd h (by simp)
    · exact ih h
    · exact ih h

end ClipLoopLemmas

section UnionCount

theorem bitCount4_eq_zero : ∀ u < 16, (bitCount4 u = 0 ↔ u = 0) := by decide

theorem bitCount4_union_lt {a b a' b' : Nat} (ha : a < 16) (hb : b < 16)
    (ha' : a' < 16) (hb' : b' < 16)
    (hsub : ∀ i < 4, (a'.testBit i = true ∨ b'.testBit i = true) →
      (a.testBit i = true ∨ b.testBit i = true))
    (j : Nat) (hj : j < 4) (hju : a.testBit j = true ∨ b.testBit j = true)
    (hja : a'.testBit j = false) (hjb : b'.testBit j = false) :
    bitCount4 (a' ||| b') < bitCount4 (a ||| b) := by
  apply bitCount4_lt_of_strict_subset _ (lor_lt_16 _ ha _ hb) _ (lor_lt_16 _ ha' _ hb')
  · intro i hi hbit
    rw [Nat.testBit_lor] at hbit ⊢
    rcases Bool.or_eq_true_iff.mp hbit with h | h
    · rcases hsub i hi (Or.inl h) with h' | h' <;> simp [h']
    · rcases hsub i hi (Or.inr h) with h' | h' <;> simp [h']
  · refine ⟨j, hj, ?_, ?_⟩
    · rw [Nat.testBit_lor]
      rcases hju with h | h <;> simp [h]
    · rw [Nat.testBit_lor, hja, hjb]
      rfl

end UnionCount

section TrimLemmas

variable {K : Type} [LinearOrderedField K]
variable {bl tr : Point_2 K}

/-- Auxiliary: trimming against a horizontal edge `y = e` of the rectangle
puts the corrected point on that edge (so its TOP and BOTTOM bits are clear)
and can set an x-bit only if one of the two current endpoints already has it. -/
theorem trimmed_y_bits (hx : bl.x ≤ tr.x) {x0 y0 x1 y1 e : K}
    (he1 : bl.y ≤ e) (he2 : e ≤ tr.y)
    (ht : 0 ≤ (e - y0) / (y1 - y0) ∧ (e - y0) / (y1 - y0) ≤ 1) :
    (computeOutCode (x0 + (x1 - x0) * (e - y0) / (y1 - y0)) e bl tr).testBit 3 = false ∧
    (computeOutCode (x0 + (x1 - x0) * (e - y0) / (y1 - y0)) e bl tr).testBit 2 = false ∧
    ∀ i < 4, (computeOutCode (x0 + (x1 - x0) * (e - y0) / (y1 - y0)) e bl tr).testBit i = true →
      ((computeOutCode x0 y0 bl tr).testBit i = true ∨
        (computeOutCode x1 y1 bl tr).testBit i = true) := by
  have hassoc : x0 + (x1 - x0) * (e - y0) / (y1 - y0)
      = x0 + (x1 - x0) * ((e - y0) / (y1 - y0)) := by ring
  have hb3 : (computeOutCode (x0 + (x1 - x0) * (e - y0) / (y1 - y0)) e bl tr).testBit 3 = false := by
    rcases Bool.eq_false_or_eq_true
        ((computeOutCode (x0 + (x1 - x0) * (e - y0) / (y1 - y0)) e bl tr).testBit 3) with h | h
    · have := ((testBit3_outCode _ e).mp h).2
      linarith
    · exact h
  have hb2 : (computeOutCode (x0 + (x1 - x0) * (e - y0) / (y1 - y0)) e bl tr).testBit 2 = false := by
    rcases Bool.eq_false_or_eq_true
        ((computeOutCode (x0 + (x1 - x0) * (e - y0) / (y1 - y0)) e bl tr).testBit 2) with h | h
    · have := (testBit2_outCode _ e).mp h
      linarith
    · exact h
  refine ⟨hb3, hb2, ?_⟩
  intro i hi hbit
  interval_cases i
  · have hlt : x0 + (x1 - x0) * (e - y0) / (y1 - y0) < bl.x := (testBit0_outCode _ e).mp hbit
    rw [hassoc] at hlt
    rcases (convex_bounds ht.1 ht.2).1 hlt with h | h
    · exact Or.inl ((testBit0_outCode x0 y0).mpr h)
    · exact Or.inr ((testBit0_outCode x1 y1).mpr h)
  · have hlt : tr.x < x0 + (x1 - x0) * (e - y0) / (y1 - y0) := ((testBit1_outCode _ e).mp hbit).2
    rw [hassoc] at hlt
    rcases (convex_bounds ht.1 ht.2).2 hlt with h | h
    · exact Or.inl ((testBit1_outCode x0 y0).mpr ⟨by intro hc; linarith, h⟩)
    · exact Or.inr ((testBit1_outCode x1 y1).mpr ⟨by intro hc; linarith, h⟩)
  · rw [hb2] at hbit
    exact absurd hbit (by decide)
  · rw [hb3] at hbit
    exact absurd hbit (by decide)

/-- Auxiliary: trimming against a vertical edge `x = e` of the rectangle
clears the LEFT and RIGHT bits and can set a y-bit only if one of the two
current endpoints already has it. -/
theorem trimmed_x_bits (hy : bl.y ≤ tr.y) {x0 y0 x1 y1 e : K}
    (he1 : bl.x ≤ e) (he2 : e ≤ tr.x)
    (ht : 0 ≤ (e - x0) / (x1 - x0) ∧ (e - x0) / (x1 - x0) ≤ 1) :
    (computeOutCode e (y0 + (y1 - y0) * (e - x0) / (x1 - x0)) bl tr).testBit 1 = false ∧
    (computeOutCode e (y0 + (y1 - y0) * (e - x0) / (x1 - x0)) bl tr).testBit 0 = false ∧
    ∀ i < 4, (computeOutCode e (y0 + (y1 - y0) * (e - x0) / (x1 - x0)) bl tr).testBit i = true →
      ((computeOutCode x0 y0 bl tr).testBit i = true ∨
        (computeOutCode x1 y1 bl tr).testBit i = true) := by
  have hassoc : y0 + (y1 - y0) * (e - x0) / (x1 - x0)
      = y0 + (y1 - y0) * ((e - x0) / (x1 - x0)) := by ring
  have hb1 : (computeOutCode e (y0 + (y1 - y0) * (e - x0) / (x1 - x0)) bl tr).testBit 1 = false := by
    rcases Bool.eq_false_or_eq_true
        ((computeOutCode e (y0 + (y1 - y0) * (e - x0) / (x1 - x0)) bl tr).testBit 1) with h | h
    · have := ((testBit1_outCode e _).mp h).2
      linarith
    · exact h
  have hb0 : (computeOutCode e (y0 + (y1 - y0) * (e - x0) / (x1 - x0)) bl tr).testBit 0 = false := by
    rcases Bool.eq_false_or_eq_true
        ((computeOutCode e (y0 + (y1 - y0) * (e - x0) / (x1 - x0)) bl tr).testBit 0) with h | h
    · have := (testBit0_outCode e _).mp h
      linarith
    · exact h
  refine ⟨hb1, hb0, ?_⟩
  intro i hi hbit
  interval_cases i
  · rw [hb0] at hbit
    exact absurd hbit (by decide)
  · rw [hb1] at hbit
    exact absurd hbit (by decide)
  · have hlt : y0 + (y1 - y0) * (e - x0) / (x1 - x0) < bl.y := (testBit2_outCode e _).mp hbit
    rw [hassoc] at hlt
    rcases (convex_bounds ht.1 ht.2).1 hlt with h | h
    · exact Or.inl ((testBit2_outCode x0 y0).mpr h)
    · exact Or.inr ((testBit2_outCode x1 y1).mpr h)
  · have hlt : tr.y < y0 + (y1 - y0) * (e - x0) / (x1 - x0) := ((testBit3_outCode e _).mp hbit).2
    rw [hassoc] at hlt
    rcases (convex_bounds ht.1 ht.2).2 hlt with h | h
    · exact Or.inl ((testBit3_outCode x0 y0).mpr ⟨by intro hc; linarith, h⟩)
    · exact Or.inr ((testBit3_outCode x1 y1).mpr ⟨by intro hc; linarith, h⟩)

end TrimLemmas

section TrimDecrease

variable {K : Type} [LinearOrderedField K]
variable {bl tr : Point_2 K}

theorem bool_not_true {b : Bool} (h : ¬b = true) : b = false := by
  cases b
  · rfl
  · exact absurd rfl h

/-- Trimming the first endpoint strictly decreases the number of rectangle
edges violated by at least one endpoint. -/
theorem trim_fst_decreases (hx : bl.x ≤ tr.x) (hy : bl.y ≤ tr.y) (x0 y0 x1 y1 : K)
    (hand : computeOutCode x0 y0 bl tr &&& computeOutCode x1 y1 bl tr = 0)
    (h0 : computeOutCode x0 y0 bl tr ≠ 0) :
    bitCount4 (computeOutCode (trimPoint x0 y0 x1 y1 bl tr (computeOutCode x0 y0 bl tr)).1
        (trimPoint x0 y0 x1 y1 bl tr (computeOutCode x0 y0 bl tr)).2 bl tr
      ||| computeOutCode x1 y1 bl tr)
      < bitCount4 (computeOutCode x0 y0 bl tr ||| computeOutCode x1 y1 bl tr) := by
  have l0 : computeOutCode x0 y0 bl tr < 16 := computeOutCode_lt_16 x0 y0
  have l1 : computeOutCode x1 y1 bl tr < 16 := computeOutCode_lt_16 x1 y1
  have hnand : ∀ i < 4, ¬((computeOutCode x0 y0 bl tr).testBit i = true ∧
      (computeOutCode x1 y1 bl tr).testBit i = true) :=
    (land_eq_zero_iff_16 _ l0 _ l1).mp hand
  have hoff : ∀ i < 4, (computeOutCode x0 y0 bl tr).testBit i = true →
      (computeOutCode x1 y1 bl tr).testBit i = false := by
    intro i hi hb
    rcases Bool.eq_false_or_eq_true ((computeOutCode x1 y1 bl tr).testBit i) with h | h
    · exact absurd ⟨hb, h⟩ (hnand i hi)
    · exact h
  by_cases b3 : (computeOutCode x0 y0 bl tr).testBit 3 = true
  · -- TOP trim of the first endpoint
    obtain ⟨hnb, hgt⟩ := (testBit3_outCode x0 y0).mp b3
    have b3' := hoff 3 (by norm_num) b3
    have hy1 : y1 ≤ tr.y := by
      by_contra hc
      push_neg at hc
      have hb : (computeOutCode x1 y1 bl tr).testBit 3 = true :=
        (testBit3_outCode x1 y1).mpr ⟨by intro h; linarith, hc⟩
      rw [b3'] at hb
      exact absurd hb (by decide)
    have hne : y0 ≠ y1 := by intro he; rw [he] at hgt; linarith
    have ht := interp_param_unit (Or.inr ⟨hy1, le_of_lt hgt⟩) hne
    have htrim : trimPoint x0 y0 x1 y1 bl tr (computeOutCode x0 y0 bl tr)
        = (x0 + (x1 - x0) * (tr.y - y0) / (y1 - y0), tr.y) := by
      unfold trimPoint
      rw [if_pos ((land_eight_ne _ l0).mpr b3)]
    rw [htrim]
    obtain ⟨nb3, nb2, hsub⟩ :=
      @trimmed_y_bits K _ bl tr hx x0 y0 x1 y1 tr.y hy (le_refl tr.y) ht
    have hsub' : ∀ i < 4,
        ((computeOutCode (x0 + (x1 - x0) * (tr.y - y0) / (y1 - y0)) tr.y bl tr).testBit i = true ∨
          (computeOutCode x1 y1 bl tr).testBit i = true) →
        ((computeOutCode x0 y0 bl tr).testBit i = true ∨
          (computeOutCode x1 y1 bl tr).testBit i = true) := by
      intro i hi hb
      rcases hb with hb | hb
      · exact hsub i hi hb
      · exact Or.inr hb
    exact bitCount4_union_lt l0 l1 (computeOutCode_lt_16 _ tr.y) l1 hsub'
      3 (by norm_num) (Or.inl b3) nb3 b3'
  · by_cases b2 : (computeOutCode x0 y0 bl tr).testBit 2 = true
    · -- BOTTOM trim of the first endpoint
      have hlt : y0 < bl.y := (testBit2_outCode x0 y0).mp b2
      have b2' := hoff 2 (by norm_num) b2
      have hy1 : bl.y ≤ y1 := by
        by_contra hc
        push_neg at hc
        have hb : (computeOutCode x1 y1 bl tr).testBit 2 = true :=
          (testBit2_outCode x1 y1).mpr hc
        rw [b2'] at hb
        exact absurd hb (by decide)
      have hne : y0 ≠ y1 := by intro he; rw [he] at hlt; linarith
      have ht := interp_param_unit (Or.inl ⟨le_of_lt hlt, hy1⟩) hne
      have htrim : trimPoint x0 y0 x1 y1 bl tr (computeOutCode x0 y0 bl tr)
          = (x0 + (x1 - x0) * (bl.y - y0) / (y1 - y0), bl.y) := by
        unfold trimPoint
        rw [if_neg (fun hc => b3 ((land_eight_ne _ l0).mp hc)),
          if_pos ((land_four_ne _ l0).mpr b2)]
      rw [htrim]
      obtain ⟨nb3, nb2, hsub⟩ :=
        @trimmed_y_bits K _ bl tr hx x0 y0 x1 y1 bl.y (le_refl bl.y) hy ht
      have hsub' : ∀ i < 4,
          ((computeOutCode (x0 + (x1 - x0) * (bl.y - y0) / (y1 - y0)) bl.y bl tr).testBit i = true ∨
            (computeOutCode x1 y1 bl tr).testBit i = true) →
          ((computeOutCode x0 y0 bl tr).testBit i = true ∨
            (computeOutCode x1 y1 bl tr).testBit i = true) := by
        intro i hi hb
        rcases hb with hb | hb
        · exact hsub i hi hb
        · exact Or.inr hb
      exact bitCount4_union_lt l0 l1 (computeOutCode_lt_16 _ bl.y) l1 hsub'
        2 (by norm_num) (Or.inl b2) nb2 b2'
    · by_cases b1 : (computeOutCode x0 y0 bl tr).testBit 1 = true
      · -- RIGHT trim of the first endpoint
        obtain ⟨hnb, hgt⟩ := (testBit1_outCode x0 y0).mp b1
        have b1' := hoff 1 (by norm_num) b1
        have hx1 : x1 ≤ tr.x := by
          by_contra hc
          push_neg at hc
          have hb : (computeOutCode x1 y1 bl tr).testBit 1 = true :=
            (testBit1_outCode x1 y1).mpr ⟨by intro h; linarith, hc⟩
          rw [b1'] at hb
          exact absurd hb (by decide)
        have hne : x0 ≠ x1 := by intro he; rw [he] at hgt; linarith
        have ht := interp_param_unit (Or.inr ⟨hx1, le_of_lt hgt⟩) hne
        have htrim : trimPoint x0 y0 x1 y1 bl tr (computeOutCode x0 y0 bl tr)
            = (tr.x, y0 + (y1 - y0) * (tr.x - x0) / (x1 - x0)) := by
          unfold trimPoint
          rw [if_neg (fun hc => b3 ((land_eight_ne _ l0).mp hc)),
            if_neg (fun hc => b2 ((land_four_ne _ l0).mp hc)),
            if_pos ((land_two_ne _ l0).mpr b1)]
        rw [htrim]
        obtain ⟨nb1, nb0, hsub⟩ :=
          @trimmed_x_bits K _ bl tr hy x0 y0 x1 y1 tr.x hx (le_refl tr.x) ht
        have hsub' : ∀ i < 4,
            ((computeOutCode tr.x (y0 + (y1 - y0) * (tr.x - x0) / (x1 - x0)) bl tr).testBit i = true ∨
              (computeOutCode x1 y1 bl tr).testBit i = true) →
            ((computeOutCode x0 y0 bl tr).testBit i = true ∨
              (computeOutCode x1 y1 bl tr).testBit i = true) := by
          intro i hi hb
          rcases hb with hb | hb
          · exact hsub i hi hb
          · exact Or.inr hb
        exact bitCount4_union_lt l0 l1 (computeOutCode_lt_16 tr.x _) l1 hsub'
          1 (by norm_num) (Or.inl b1) nb1 b1'
      · -- LEFT trim of the first endpoint
        have b0 : (computeOutCode x0 y0 bl tr).testBit 0 = true := by
          rcases Bool.eq_false_or_eq_true ((computeOutCode x0 y0 bl tr).testBit 0) with h | h
          · exact h
          · exfalso
            apply h0
            apply (eq_zero_iff_testBit_16 _ l0).mpr
            intro i hi
            interval_cases i
            · exact h
            · exact bool_not_true b1
            · exact bool_not_true b2
            · exact bool_not_true b3
        have hlt : x0 < bl.x := (testBit0_outCode x0 y0).mp b0
        have b0' := hoff 0 (by norm_num) b0
        have hx1 : bl.x ≤ x1 := by
          by_contra hc
          push_neg at hc
          have hb : (computeOutCode x1 y1 bl tr).testBit 0 = true :=
            (testBit0_outCode x1 y1).mpr hc
          rw [b0'] at hb
          exact absurd hb (by decide)
        have hne : x0 ≠ x1 := by intro he; rw [he] at hlt; linarith
        have ht := interp_param_unit (Or.inl ⟨le_of_lt hlt, hx1⟩) hne
        have htrim : trimPoint x0 y0 x1 y1 bl tr (computeOutCode x0 y0 bl tr)
            = (bl.x, y0 + (y1 - y0) * (bl.x - x0) / (x1 - x0)) := by
          unfold trimPoint
          rw [if_neg (fun hc => b3 ((land_eight_ne _ l0).mp hc)),
            if_neg (fun hc => b2 ((land_four_ne _ l0).mp hc)),
            if_neg (fun hc => b1 ((land_two_ne _ l0).mp hc))]
        rw [htrim]
        obtain ⟨nb1, nb0, hsub⟩ :=
          @trimmed_x_bits K _ bl tr hy x0 y0 x1 y1 bl.x (le_refl bl.x) hx ht
        have hsub' : ∀ i < 4,
            ((computeOutCode bl.x (y0 + (y1 - y0) * (bl.x - x0) / (x1 - x0)) bl tr).testBit i = true ∨
              (computeOutCode x1 y1 bl tr).testBit i = true) →
            ((computeOutCode x0 y0 bl tr).testBit i = true ∨
              (computeOutCode x1 y1 bl tr).testBit i = true) := by
          intro i hi hb
          rcases hb with hb | hb
          · exact hsub i hi hb
          · exact Or.inr hb
        exact bitCount4_union_lt l0 l1 (computeOutCode_lt_16 bl.x _) l1 hsub'
          0 (by norm_num) (Or.inl b0) nb0 b0'

end TrimDecrease

section TrimDecreaseSnd

variable {K : Type} [LinearOrderedField K]
variable {bl tr : Point_2 K}

/-- Trimming the second endpoint (selected only when the first endpoint is
inside) strictly decreases the number of violated rectangle edges. -/
theorem trim_snd_decreases (hx : bl.x ≤ tr.x) (hy : bl.y ≤ tr.y) (x0 y0 x1 y1 : K)
    (h0 : computeOutCode x0 y0 bl tr = 0)
    (h1 : computeOutCode x1 y1 bl tr ≠ 0) :
    bitCount4 (computeOutCode x0 y0 bl tr |||
        computeOutCode (trimPoint x0 y0 x1 y1 bl tr (computeOutCode x1 y1 bl tr)).1
          (trimPoint x0 y0 x1 y1 bl tr (computeOutCode x1 y1 bl tr)).2 bl tr)
      < bitCount4 (computeOutCode x0 y0 bl tr ||| computeOutCode x1 y1 bl tr) := by
  have l0 : computeOutCode x0 y0 bl tr < 16 := computeOutCode_lt_16 x0 y0
  have l1 : computeOutCode x1 y1 bl tr < 16 := computeOutCode_lt_16 x1 y1
  have hzero : ∀ i, (computeOutCode x0 y0 bl tr).testBit i = false := by
    intro i
    rw [h0]
    exact Nat.zero_testBit i
  obtain ⟨hi1, hi2, hi3, hi4⟩ := (outCode_eq_zero x0 y0).mp h0
  by_cases b3 : (computeOutCode x1 y1 bl tr).testBit 3 = true
  · -- TOP trim of the second endpoint
    obtain ⟨hnb, hgt⟩ := (testBit3_outCode x1 y1).mp b3
    have hne : y0 ≠ y1 := by intro he; rw [he] at hi4; linarith
    have ht := interp_param_unit (Or.inl ⟨hi4, le_of_lt hgt⟩) hne
    have htrim : trimPoint x0 y0 x1 y1 bl tr (computeOutCode x1 y1 bl tr)
        = (x0 + (x1 - x0) * (tr.y - y0) / (y1 - y0), tr.y) := by
      unfold trimPoint
      rw [if_pos ((land_eight_ne _ l1).mpr b3)]
    rw [htrim]
    obtain ⟨nb3, nb2, hsub⟩ :=
      @trimmed_y_bits K _ bl tr hx x0 y0 x1 y1 tr.y hy (le_refl tr.y) ht
    have hsub' : ∀ i < 4,
        ((computeOutCode x0 y0 bl tr).testBit i = true ∨
          (computeOutCode (x0 + (x1 - x0) * (tr.y - y0) / (y1 - y0)) tr.y bl tr).testBit i = true) →
        ((computeOutCode x0 y0 bl tr).testBit i = true ∨
          (computeOutCode x1 y1 bl tr).testBit i = true) := by
      intro i hi hb
      rcases hb with hb | hb
      · exact Or.inl hb
      · exact hsub i hi hb
    exact bitCount4_union_lt l0 l1 l0 (computeOutCode_lt_16 _ tr.y) hsub'
      3 (by norm_num) (Or.inr b3) (hzero 3) nb3
  · by_cases b2 : (computeOutCode x1 y1 bl tr).testBit 2 = true
    · -- BOTTOM trim of the second endpoint
      have hlt : y1 < bl.y := (testBit2_outCode x1 y1).mp b2
      have hne : y0 ≠ y1 := by intro he; rw [he] at hi3; linarith
      have ht := interp_param_unit (Or.inr ⟨le_of_lt hlt, hi3⟩) hne
      have htrim : trimPoint x0 y0 x1 y1 bl tr (computeOutCode x1 y1 bl tr)
          = (x0 + (x1 - x0) * (bl.y - y0) / (y1 - y0), bl.y) := by
        unfold trimPoint
        rw [if_neg (fun hc => b3 ((land_eight_ne _ l1).mp hc)),
          if_pos ((land_four_ne _ l1).mpr b2)]
      rw [htrim]
      obtain ⟨nb3, nb2, hsub⟩ :=
        @trimmed_y_bits K _ bl tr hx x0 y0 x1 y1 bl.y (le_refl bl.y) hy ht
      have hsub' : ∀ i < 4,
          ((computeOutCode x0 y0 bl tr).testBit i = true ∨
            (computeOutCode (x0 + (x1 - x0) * (bl.y - y0) / (y1 - y0)) bl.y bl tr).testBit i = true) →
          ((computeOutCode x0 y0 bl tr).testBit i = true ∨
            (computeOutCode x1 y1 bl tr).testBit i = true) := by
        intro i hi hb
        rcases hb with hb | hb
        · exact Or.inl hb
        · exact hsub i hi hb
      exact bitCount4_union_lt l0 l1 l0 (computeOutCode_lt_16 _ bl.y) hsub'
        2 (by norm_num) (Or.inr b2) (hzero 2) nb2
    · by_cases b1 : (computeOutCode x1 y1 bl tr).testBit 1 = true
      · -- RIGHT trim of the second endpoint
        obtain ⟨hnb, hgt⟩ := (testBit1_outCode x1 y1).mp b1
        have hne : x0 ≠ x1 := by intro he; rw [he] at hi2; linarith
        have ht := interp_param_unit (Or.inl ⟨hi2, le_of_lt hgt⟩) hne
        have htrim : trimPoint x0 y0 x1 y1 bl tr (computeOutCode x1 y1 bl tr)
            = (tr.x, y0 + (y1 - y0) * (tr.x - x0) / (x1 - x0)) := by
          unfold trimPoint
          rw [if_neg (fun hc => b3 ((land_eight_ne _ l1).mp hc)),
            if_neg (fun hc => b2 ((land_four_ne _ l1).mp hc)),
            if_pos ((land_two_ne _ l1).mpr b1)]
        rw [htrim]
        obtain ⟨nb1, nb0, hsub⟩ :=
          @trimmed_x_bits K _ bl tr hy x0 y0 x1 y1 tr.x hx (le_refl tr.x) ht
        have hsub' : ∀ i < 4,
            ((computeOutCode x0 y0 bl tr).testBit i = true ∨
              (computeOutCode tr.x (y0 + (y1 - y0) * (tr.x - x0) / (x1 - x0)) bl tr).testBit i = true) →
            ((computeOutCode x0 y0 bl tr).testBit i = true ∨
              (computeOutCode x1 y1 bl tr).testBit i = true) := by
          intro i hi hb
          rcases hb with hb | hb
          · exact Or.inl hb
          · exact hsub i hi hb
        exact bitCount4_union_lt l0 l1 l0 (computeOutCode_lt_16 tr.x _) hsub'
          1 (by norm_num) (Or.inr b1) (hzero 1) nb1
      · -- LEFT trim of the second endpoint
        have b0 : (computeOutCode x1 y1 bl tr).testBit 0 = true := by
          rcases Bool.eq_false_or_eq_true ((computeOutCode x1 y1 bl tr).testBit 0) with h | h
          · exact h
          · exfalso
            apply h1
            apply (eq_zero_iff_testBit_16 _ l1).mpr
            intro i hi
            interval_cases i
            · exact h
            · exact bool_not_true b1
            · exact bool_not_true b2
            · exact bool_not_true b3
        have hlt : x1 < bl.x := (testBit0_outCode x1 y1).mp b0
        have hne : x0 ≠ x1 := by intro he; rw [he] at hi1; linarith
        have ht := interp_param_unit (Or.inr ⟨le_of_lt hlt, hi1⟩) hne
        have htrim : trimPoint x0 y0 x1 y1 bl tr (computeOutCode x1 y1 bl tr)
            = (bl.x, y0 + (y1 - y0) * (bl.x - x0) / (x1 - x0)) := by
          unfold trimPoint
          rw [if_neg (fun hc => b3 ((land_eight_ne _ l1).mp hc)),
            if_neg (fun hc => b2 ((land_four_ne _ l1).mp hc)),
            if_neg (fun hc => b1 ((land_two_ne _ l1).mp hc))]
        rw [htrim]
        obtain ⟨nb1, nb0, hsub⟩ :=
          @trimmed_x_bits K _ bl tr hy x0 y0 x1 y1 bl.x (le_refl bl.x) hx ht
        have hsub' : ∀ i < 4,
            ((computeOutCode x0 y0 bl tr).testBit i = true ∨
              (computeOutCode bl.x (y0 + (y1 - y0) * (bl.x - x0) / (x1 - x0)) bl tr).testBit i = true) →
            ((computeOutCode x0 y0 bl tr).testBit i = true ∨
              (computeOutCode x1 y1 bl tr).testBit i = true) := by
          intro i hi hb
          rcases hb with hb | hb
          · exact Or.inl hb
          · exact hsub i hi hb
        exact bitCount4_union_lt l0 l1 l0 (computeOutCode_lt_16 bl.x _) hsub'
          0 (by norm_num) (Or.inr b0) (hzero 0) nb0

end TrimDecreaseSnd

section Termination

variable {K : Type} [LinearOrderedField K]
variable {bl tr : Point_2 K}

/-- The clip loop reaches a terminal branch once the fuel exceeds the number
of rectangle edges violated by at least one endpoint: every trim step
strictly decreases that number. -/
theorem clipLoop_total (hx : bl.x ≤ tr.x) (hy : bl.y ≤ tr.y) :
    ∀ n (x0 y0 x1 y1 : K),
      bitCount4 (computeOutCode x0 y0 bl tr ||| computeOutCode x1 y1 bl tr) ≤ n →
      ∃ r, clipLoop bl tr (n + 1) x0 y0 x1 y1 = some r := by
  intro n
  induction n with
  | zero =>
    intro x0 y0 x1 y1 hcnt
    have hlt : computeOutCode x0 y0 bl tr ||| computeOutCode x1 y1 bl tr < 16 :=
      lor_lt_16 _ (computeOutCode_lt_16 x0 y0) _ (computeOutCode_lt_16 x1 y1)
    have hu : computeOutCode x0 y0 bl tr ||| computeOutCode x1 y1 bl tr = 0 :=
      (bitCount4_eq_zero _ hlt).mp (Nat.le_zero.mp hcnt)
    exact ⟨_, clipLoop_accept 0 hu⟩
  | succ n ih =>
    intro x0 y0 x1 y1 hcnt
    by_cases hor : computeOutCode x0 y0 bl tr ||| computeOutCode x1 y1 bl tr = 0
    · exact ⟨_, clipLoop_accept (n + 1) hor⟩
    · by_cases hand : computeOutCode x0 y0 bl tr &&& computeOutCode x1 y1 bl tr ≠ 0
      · exact ⟨_, clipLoop_reject (n + 1) hor hand⟩
      · by_cases h00 : computeOutCode x0 y0 bl tr = 0
        · have h11 : computeOutCode x1 y1 bl tr ≠ 0 := by
            intro hc
            exact hor (by rw [h00, hc]; decide)
          rw [clipLoop_trim_snd (n + 1) hor hand h00]
          apply ih
          have hdec := trim_snd_decreases hx hy x0 y0 x1 y1 h00 h11
          omega
        · rw [clipLoop_trim_fst (n + 1) hor hand h00]
          apply ih
          have hdec := trim_fst_decreases hx hy x0 y0 x1 y1 (not_ne_iff.mp hand) h00
          omega

/-- Fuel 5 always suffices for a valid rectangle: at most 4 trim steps (the
measure is at most 4 since there are 4 rectangle edges) plus the final
accept/reject iteration. -/
theorem clipLoop_fuel_five (hx : bl.x ≤ tr.x) (hy : bl.y ≤ tr.y) (x0 y0 x1 y1 : K) :
    ∃ r, clipLoop bl tr 5 x0 y0 x1 y1 = some r := by
  have hlt : computeOutCode x0 y0 bl tr ||| computeOutCode x1 y1 bl tr < 16 :=
    lor_lt_16 _ (computeOutCode_lt_16 x0 y0) _ (computeOutCode_lt_16 x1 y1)
  exact clipLoop_total hx hy 4 x0 y0 x1 y1 (bitCount4_le_4 _ hlt)

end Termination

section ClipLineLemmas

variable {K : Type} [LinearOrderedField K]
variable {bl tr : Point_2 K}

/-- Whatever `clipLine` accepts lies inside (or on the boundary of) the
rectangle. -/
theorem clipLine_accept_bounds {l l' : Line_2 K}
    (h : clipLine l bl tr = some (true, l')) :
    (bl.x ≤ l'.start.x ∧ l'.start.x ≤ tr.x ∧ bl.y ≤ l'.start.y ∧ l'.start.y ≤ tr.y) ∧
      (bl.x ≤ l'.endPt.x ∧ l'.endPt.x ≤ tr.x ∧ bl.y ≤ l'.endPt.y ∧ l'.endPt.y ≤ tr.y) := by
  unfold clipLine at h
  split at h
  case h_1 a b c d heq =>
    obtain ⟨hc0, hc1⟩ := clipLoop_accepted_outcodes 5 heq
    have hl : l' = ⟨⟨a, b⟩, ⟨c, d⟩⟩ := by
      injection h with h'
      injection h' with h1 h2
      exact h2.symm
    subst hl
    exact ⟨(outCode_eq_zero a b).mp hc0, (outCode_eq_zero c d).mp hc1⟩
  case h_2 heq =>
    exact absurd h (by simp)
  case h_3 heq =>
    exact absurd h (by simp)

/-- Clipping a line whose endpoints are already inside the rectangle accepts
it unchanged on the first loop iteration. -/
theorem clipLine_inside_id (l : Line_2 K)
    (h1 : bl.x ≤ l.start.x) (h2 : l.start.x ≤ tr.x)
    (h3 : bl.y ≤ l.start.y) (h4 : l.start.y ≤ tr.y)
    (h5 : bl.x ≤ l.endPt.x) (h6 : l.endPt.x ≤ tr.x)
    (h7 : bl.y ≤ l.endPt.y) (h8 : l.endPt.y ≤ tr.y) :
    clipLine l bl tr = some (true, l) := by
  have hc0 : computeOutCode l.start.x l.start.y bl tr = 0 :=
    (outCode_eq_zero _ _).mpr ⟨h1, h2, h3, h4⟩
  have hc1 : computeOutCode l.endPt.x l.endPt.y bl tr = 0 :=
    (outCode_eq_zero _ _).mpr ⟨h5, h6, h7, h8⟩
  have hstep : clipLoop bl tr 5 l.start.x l.start.y l.endPt.x l.endPt.y
      = some (ClipResult.accepted l.start.x l.start.y l.endPt.x l.endPt.y) :=
    clipLoop_accept 4 (by rw [hc0, hc1]; decide)
  unfold clipLine
  rw [hstep]

/-- On rejection the line is returned exactly as passed in. -/
theorem clipLine_reject_id {l l' : Line_2 K}
    (h : clipLine l bl tr = some (false, l')) : l' = l := by
  unfold clipLine at h
  split at h
  case h_1 a b c d heq =>
    exact absurd h (by simp)
  case h_2 heq =>
    injection h with h'
    injection h' with h1 h2
    exact h2.symm
  case h_3 heq =>
    exact absurd h (by simp)

end ClipLineLemmas

section NormalizeLemmas

variable {K : Type} [LinearOrderedField K] [FloorRing K]

theorem normalizeAngle_mem (x : K) : 0 ≤ normalizeAngle x ∧ normalizeAngle x < 360 := by
  have h360 : (360 : K) * (x / 360) = x := by field_simp
  have f1 : 360 * ((⌊x / 360⌋ : ℤ) : K) ≤ x := by
    have h := mul_le_mul_of_nonneg_left (Int.floor_le (x / 360)) (by norm_num : (0 : K) ≤ 360)
    rw [h360] at h
    exact h
  have f2 : x - 360 < 360 * ((⌊x / 360⌋ : ℤ) : K) := by
    have h := mul_lt_mul_of_pos_left (Int.sub_one_lt_floor (x / 360)) (by norm_num : (0 : K) < 360)
    rw [mul_sub, h360, mul_one] at h
    exact h
  have f3 : x ≤ 360 * ((⌈x / 360⌉ : ℤ) : K) := by
    have h := mul_le_mul_of_nonneg_left (Int.le_ceil (x / 360)) (by norm_num : (0 : K) ≤ 360)
    rw [h360] at h
    exact h
  have f4 : 360 * ((⌈x / 360⌉ : ℤ) : K) < x + 360 := by
    have h := mul_lt_mul_of_pos_left (Int.ceil_lt_add_one (x / 360)) (by norm_num : (0 : K) < 360)
    rw [mul_add, h360, mul_one] at h
    exact h
  unfold normalizeAngle fmod360
  split_ifs with h1 h2 h2 <;> constructor <;> linarith

theorem normalizeAngle_eq_self {x : K} (h1 : 0 ≤ x) (h2 : x < 360) :
    normalizeAngle x = x := by
  have hq : ¬x / 360 < 0 := not_lt.mpr (div_nonneg h1 (by norm_num))
  have hfl : ⌊x / 360⌋ = 0 :=
    Int.floor_eq_zero_iff.mpr ⟨div_nonneg h1 (by norm_num), (div_lt_one (by norm_num)).mpr h2⟩
  have hfm : fmod360 x = x := by
    unfold fmod360
    rw [if_neg hq, hfl]
    push_cast
    ring
  unfold normalizeAngle
  rw [hfm, if_neg (not_lt.mpr h1)]

end NormalizeLemmas

section LoopMemLemmas

variable {K : Type} [LinearOrderedField K]

theorem horizUp_mem {blx trx ty step : K} (hstep : 0 < step) :
    ∀ (n : Nat) (y0 : K), ∀ l ∈ horizUp blx trx ty step n y0,
      ∃ y, l = ⟨⟨blx, y⟩, ⟨trx, y⟩⟩ ∧ y0 ≤ y ∧ y ≤ ty := by
  intro n
  induction n with
  | zero =>
    intro y0 l hl
    exact absurd hl (by simp [horizUp])
  | succ n ih =>
    intro y0 l hl
    unfold horizUp at hl
    by_cases hg : y0 ≤ ty
    · rw [if_pos hg] at hl
      rcases List.mem_cons.mp hl with rfl | hl
      · exact ⟨y0, rfl, le_refl y0, hg⟩
      · obtain ⟨y, hy1, hy2, hy3⟩ := ih (y0 + step) l hl
        exact ⟨y, hy1, by linarith, hy3⟩
    · rw [if_neg hg] at hl
      exact absurd hl (List.not_mem_nil l)

theorem horizDown_mem {blx trx bly step : K} (hstep : 0 < step) :
    ∀ (n : Nat) (y0 : K), ∀ l ∈ horizDown blx trx bly step n y0,
      ∃ y, l = ⟨⟨blx, y⟩, ⟨trx, y⟩⟩ ∧ bly ≤ y ∧ y ≤ y0 := by
  intro n
  induction n with
  | zero =>
    intro y0 l hl
    exact absurd hl (by simp [horizDown])
  | succ n ih =>
    intro y0 l hl
    unfold horizDown at hl
    by_cases hg : bly ≤ y0
    · rw [if_pos hg] at hl
      rcases List.mem_cons.mp hl with rfl | hl
      · exact ⟨y0, rfl, hg, le_refl y0⟩
      · obtain ⟨y, hy1, hy2, hy3⟩ := ih (y0 - step) l hl
        exact ⟨y, hy1, hy2, by linarith⟩
    · rw [if_neg hg] at hl
      exact absurd hl (List.not_mem_nil l)

theorem vertLoop_mem {bly ty trx step : K} (hstep : 0 < step) :
    ∀ (n : Nat) (x0 : K), ∀ l ∈ vertLoop bly ty trx step n x0,
      ∃ x, l = ⟨⟨x, bly⟩, ⟨x, ty⟩⟩ ∧ x0 ≤ x ∧ x ≤ trx := by
  intro n
  induction n with
  | zero =>
    intro x0 l hl
    exact absurd hl (by simp [vertLoop])
  | succ n ih =>
    intro x0 l hl
    unfold vertLoop at hl
    by_cases hg : x0 ≤ trx
    · rw [if_pos hg] at hl
      rcases List.mem_cons.mp hl with rfl | hl
      · exact ⟨x0, rfl, le_refl x0, hg⟩
      · obtain ⟨x, hx1, hx2, hx3⟩ := ih (x0 + step) l hl
        exact ⟨x, hx1, by linarith, hx3⟩
    · rw [if_neg hg] at hl
      exact absurd hl (List.not_mem_nil l)

theorem genLoop_mem {bl tr center dir : Point_2 K} {diagonal step : K} :
    ∀ (n : Nat) (offset : K), ∀ l ∈ genLoop bl tr center dir diagonal step n offset,
      ∃ cand, clipLine cand bl tr = some (true, l) := by
  intro n
  induction n with
  | zero =>
    intro o l hl
    exact absurd hl (by simp [genLoop])
  | succ n ih =>
    intro o l hl
    unfold genLoop at hl
    by_cases hg : o ≤ diagonal / 2
    · rw [if_pos hg] at hl
      split at hl
      · rename_i l' heq
        rcases List.mem_cons.mp hl with rfl | hl
        · exact ⟨candidateLine center dir diagonal o, heq⟩
        · exact ih (o + step) l hl
      · exact ih (o + step) l hl
    · rw [if_neg hg] at hl
      exact absurd hl (List.not_mem_nil l)

end LoopMemLemmas

section LoopRunLemmas

variable {K : Type} [LinearOrderedField K]

theorem horizUp_nil {blx trx ty step : K} :
    ∀ (n : Nat) {y : K}, ty < y → horizUp blx trx ty step n y = [] := by
  intro n y hy
  cases n with
  | zero => rfl
  | succ n =>
    unfold horizUp
    rw [if_neg (not_le.mpr hy)]

theorem horizDown_nil {blx trx bly step : K} :
    ∀ (n : Nat) {y : K}, y < bly → horizDown blx trx bly step n y = [] := by
  intro n y hy
  cases n with
  | zero => rfl
  | succ n =>
    unfold horizDown
    rw [if_neg (not_le.mpr hy)]

/-- A complete run of the bottom-up horizontal loop: if `k` is the index of
the last enumerated line, the loop output is exactly the lines at
`y, y + step, …, y + k·step`. -/
theorem horizUp_run {blx trx ty step : K} (hstep : 0 < step) :
    ∀ (k : Nat), ∀ (n : Nat) (y : K), k < n →
      y + (k : K) * step ≤ ty → ty < y + (k : K) * step + step →
      horizUp blx trx ty step n y =
        (List.range (k + 1)).map fun i => ⟨⟨blx, y + (i : K) * step⟩, ⟨trx, y + (i : K) * step⟩⟩ := by
  intro k
  induction k with
  | zero =>
    intro n y hn hky hnext
    obtain ⟨m, rfl⟩ : ∃ m, n = m + 1 := ⟨n - 1, by omega⟩
    have hy : y ≤ ty := by
      push_cast at hky
      linarith
    unfold horizUp
    rw [if_pos hy, horizUp_nil m (by push_cast at hnext; linarith)]
    simp [List.range_succ]
  | succ k ih =>
    intro n y hn hky hnext
    obtain ⟨m, rfl⟩ : ∃ m, n = m + 1 := ⟨n - 1, by omega⟩
    have hkpos : (0 : K) < ((k : K) + 1) * step := by
      apply mul_pos _ hstep
      have : (0 : K) ≤ (k : K) := Nat.cast_nonneg k
      linarith
    have hy : y ≤ ty := by
      push_cast at hky
      nlinarith
    unfold horizUp
    rw [if_pos hy]
    rw [ih m (y + step) (by omega) (by push_cast at hky ⊢; linarith) (by push_cast at hnext ⊢; linarith)]
    conv_rhs => rw [List.range_succ_eq_map, List.map_cons, List.map_map]
    congr 1
    · norm_num
    · apply List.map_congr_left
      intro a ha
      simp only [Function.comp]
      congr 1 <;> congr 1 <;> push_cast <;> ring

/-- A complete run of the top-down horizontal loop. -/
theorem horizDown_run {blx trx bly step : K} (hstep : 0 < step) :
    ∀ (k : Nat), ∀ (n : Nat) (y : K), k < n →
      bly ≤ y - (k : K) * step → y - (k : K) * step - step < bly →
      horizDown blx trx bly step n y =
        (List.range (k + 1)).map fun i => ⟨⟨blx, y - (i : K) * step⟩, ⟨trx, y - (i : K) * step⟩⟩ := by
  intro k
  induction k with
  | zero =>
    intro n y hn hky hnext
    obtain ⟨m, rfl⟩ : ∃ m, n = m + 1 := ⟨n - 1, by omega⟩
    have hy : bly ≤ y := by
      push_cast at hky
      linarith
    unfold horizDown
    rw [if_pos hy, horizDown_nil m (by push_cast at hnext; linarith)]
    simp [List.range_succ]
  | succ k ih =>
    intro n y hn hky hnext
    obtain ⟨m, rfl⟩ : ∃ m, n = m + 1 := ⟨n - 1, by omega⟩
    have hkpos : (0 : K) < ((k : K) + 1) * step := by
      apply mul_pos _ hstep
      have : (0 : K) ≤ (k : K) := Nat.cast_nonneg k
      linarith
    have hy : bly ≤ y := by
      push_cast at hky
      nlinarith
    unfold horizDown
    rw [if_pos hy]
    rw [ih m (y - step) (by omega) (by push_cast at hky ⊢; linarith) (by push_cast at hnext ⊢; linarith)]
    conv_rhs => rw [List.range_succ_eq_map, List.map_cons, List.map_map]
    congr 1
    · norm_num
    · apply List.map_congr_left
      intro a ha
      simp only [Function.comp]
      congr 1 <;> congr 1 <;> push_cast <;> ring

/-- Reversing a `map` over `range`. -/
theorem map_range_reverse {α : Type} (g : Nat → α) :
    ∀ (k : Nat), ((List.range (k + 1)).map g).reverse
      = (List.range (k + 1)).map fun i => g (k - i) := by
  intro k
  induction k with
  | zero => simp [List.range_succ]
  | succ k ih =>
    conv_lhs => rw [List.range_succ]
    rw [List.map_append, List.reverse_append, ih]
    conv_rhs => rw [List.range_succ_eq_map, List.map_cons, List.map_map]
    simp [Function.comp, Nat.succ_sub_succ]

end LoopRunLemmas

section GeneratorLemmas

variable {K : Type} [LinearOrderedField K] [FloorRing K]
variable {bl tr dir : Point_2 K}

theorem generate_error {angleDegrees step diagonal : K} (hstep : step ≤ 0) :
    generateHatchLines bl tr angleDegrees step dir diagonal
      = Except.error ("step must be greater than zero") := by
  unfold generateHatchLines
  rw [if_pos hstep]

theorem generate_horiz {angleDegrees step diagonal : K} (hstep : ¬step ≤ 0)
    (ha : normalizeAngle angleDegrees = 0) :
    generateHatchLines bl tr angleDegrees step dir diagonal
      = Except.ok (horizUp bl.x tr.x tr.y step (⌊(tr.y - bl.y) / step⌋ + 2).toNat bl.y) := by
  unfold generateHatchLines
  rw [if_neg hstep, if_pos (Or.inl ha)]

theorem generate_180 {angleDegrees step diagonal : K} (hstep : ¬step ≤ 0)
    (ha : normalizeAngle angleDegrees = 180) :
    generateHatchLines bl tr angleDegrees step dir diagonal
      = Except.ok (horizDown bl.x tr.x bl.y step (⌊(tr.y - bl.y) / step⌋ + 2).toNat tr.y) := by
  unfold generateHatchLines
  rw [if_neg hstep, if_neg (by rw [ha]; norm_num), if_pos (Or.inl ha)]

theorem generate_vert {angleDegrees step diagonal : K} (hstep : ¬step ≤ 0)
    (ha : normalizeAngle angleDegrees = 90 ∨ normalizeAngle angleDegrees = 270) :
    generateHatchLines bl tr angleDegrees step dir diagonal
      = Except.ok (vertLoop bl.y tr.y tr.x step (⌊(tr.x - bl.x) / step⌋ + 2).toNat bl.x) := by
  unfold generateHatchLines
  rcases ha with ha | ha <;>
    rw [if_neg hstep, if_neg (by rw [ha]; norm_num), if_neg (by rw [ha]; norm_num)] <;>
    [rw [if_pos (Or.inl ha)]; rw [if_pos (Or.inr (Or.inr (Or.inl ha)))]]

theorem generate_general {angleDegrees step diagonal : K} (hstep : ¬step ≤ 0)
    (h1 : ¬(normalizeAngle angleDegrees = 0 ∨ normalizeAngle angleDegrees = 360))
    (h2 : ¬(normalizeAngle angleDegrees = 180 ∨ normalizeAngle angleDegrees = -180))
    (h3 : ¬(normalizeAngle angleDegrees = 90 ∨ normalizeAngle angleDegrees = -90 ∨
      normalizeAngle angleDegrees = 270 ∨ normalizeAngle angleDegrees = -270)) :
    generateHatchLines bl tr angleDegrees step dir diagonal
      = Except.ok (genLoop bl tr ⟨(bl.x + tr.x) / 2, (bl.y + tr.y) / 2⟩ dir diagonal step
          (⌊diagonal / step⌋ + 2).toNat (-(diagonal / 2))) := by
  unfold generateHatchLines
  rw [if_neg hstep, if_neg h1, if_neg h2, if_neg h3]

/-- Characterization of the 0° branch: the generator emits exactly the
horizontal lines at `y = bl.y + i*step` for `i = 0, …, ⌊(tr.y - bl.y)/step⌋`. -/
theorem generate_horiz_run {angleDegrees step diagonal : K} (hstep : 0 < step)
    (hy : bl.y ≤ tr.y) (ha : normalizeAngle angleDegrees = 0) :
    generateHatchLines bl tr angleDegrees step dir diagonal
      = Except.ok ((List.range (⌊(tr.y - bl.y) / step⌋.toNat + 1)).map
          fun i => ⟨⟨bl.x, bl.y + (i : K) * step⟩, ⟨tr.x, bl.y + (i : K) * step⟩⟩) := by
  rw [generate_horiz (not_le.mpr hstep) ha]
  have hstep' : step ≠ 0 := ne_of_gt hstep
  have hq0 : (0 : K) ≤ (tr.y - bl.y) / step := div_nonneg (by linarith) (le_of_lt hstep)
  have hfl0 : 0 ≤ ⌊(tr.y - bl.y) / step⌋ := Int.floor_nonneg.mpr hq0
  have hcast : ((⌊(tr.y - bl.y) / step⌋.toNat : ℕ) : K) = ((⌊(tr.y - bl.y) / step⌋ : ℤ) : K) := by
    rw [← Int.cast_natCast, Int.toNat_of_nonneg hfl0]
  have hmul : (tr.y - bl.y) / step * step = tr.y - bl.y := div_mul_cancel₀ _ hstep'
  congr 1
  apply horizUp_run hstep
  · omega
  · rw [hcast]
    have h1 : ((⌊(tr.y - bl.y) / step⌋ : ℤ) : K) ≤ (tr.y - bl.y) / step := Int.floor_le _
    have h2 := mul_le_mul_of_nonneg_right h1 (le_of_lt hstep)
    rw [hmul] at h2
    linarith
  · rw [hcast]
    have h1 : (tr.y - bl.y) / step < ((⌊(tr.y - bl.y) / step⌋ : ℤ) : K) + 1 := Int.lt_floor_add_one _
    have h2 := mul_lt_mul_of_pos_right h1 hstep
    rw [hmul, add_mul, one_mul] at h2
    linarith

/-- When `step` exactly divides the rectangle height, the 180° branch output
is the reverse of the 0° branch output. -/
theorem generate_180_reverse {a0 a180 step diagonal : K} {k : Nat} (hstep : 0 < step)
    (hk : tr.y - bl.y = (k : K) * step)
    (ha0 : normalizeAngle a0 = 0) (ha180 : normalizeAngle a180 = 180) :
    ∃ L : List (Line_2 K),
      generateHatchLines bl tr a0 step dir diagonal = Except.ok L ∧
        generateHatchLines bl tr a180 step dir diagonal = Except.ok L.reverse := by
  have hstep' : step ≠ 0 := ne_of_gt hstep
  have hq : (tr.y - bl.y) / step = (k : K) := by
    rw [hk]
    exact mul_div_cancel_right₀ _ hstep'
  have hfl : ⌊(tr.y - bl.y) / step⌋ = (k : ℤ) := by
    rw [hq]
    exact_mod_cast Int.floor_natCast k
  have hfuel : (⌊(tr.y - bl.y) / step⌋ + 2).toNat = k + 2 := by
    rw [hfl]
    omega
  have hknk : (k : ℤ) ≥ 0 := Int.natCast_nonneg k
  refine ⟨(List.range (k + 1)).map
      fun (i : Nat) => ⟨⟨bl.x, bl.y + (i : K) * step⟩, ⟨tr.x, bl.y + (i : K) * step⟩⟩, ?_, ?_⟩
  · rw [generate_horiz (not_le.mpr hstep) ha0, hfuel]
    congr 1
    apply horizUp_run hstep
    · omega
    · rw [← hk]
      linarith
    · rw [← hk]
      linarith
  · rw [generate_180 (not_le.mpr hstep) ha180, hfuel]
    congr 1
    rw [horizDown_run hstep k (k + 2) tr.y (by omega) (by rw [← hk]; linarith) (by rw [← hk]; linarith)]
    rw [map_range_reverse]
    apply List.map_congr_left
    intro a ha
    have hak : a ≤ k := by
      have := List.mem_range.mp ha
      omega
    have hcast : ((k - a : ℕ) : K) = (k : K) - (a : K) := by
      push_cast [Nat.cast_sub hak]
      ring
    congr 1 <;> congr 1 <;> rw [hcast] <;> linear_combination hk
end GeneratorLemmas

section GenLoopHelpers

variable {K : Type} [LinearOrderedField K]
variable {bl tr center dir : Point_2 K} {diagonal step : K}

theorem genLoop_succ (n : Nat) (offset : K) :
    genLoop bl tr center dir diagonal step (n + 1) offset =
      if offset ≤ diagonal / 2 then
        match clipLine (candidateLine center dir diagonal offset) bl tr with
        | some (true, l) => l :: genLoop bl tr center dir diagonal step n (offset + step)
        | _ => genLoop bl tr center dir diagonal step n (offset + step)
      else [] := rfl

theorem genLoop_cons (n : Nat) {offset : K} (h1 : offset ≤ diagonal / 2)
    {l : Line_2 K}
    (h2 : clipLine (candidateLine center dir diagonal offset) bl tr = some (true, l)) :
    genLoop bl tr center dir diagonal step (n + 1) offset =
      l :: genLoop bl tr center dir diagonal step n (offset + step) := by
  rw [genLoop_succ, if_pos h1, h2]

end GenLoopHelpers

section ConcreteEval

/-- Evaluation of the generator on the program's hard-coded rectangle
`(0,0)-(20,10)` at angle 0, step 1. -/
theorem gen_rect_angle0_eval :
    generateHatchLines (K := ℚ) ⟨0,0⟩ ⟨20,10⟩ 0 1 ⟨1,0⟩ 0 = Except.ok
      [⟨⟨0,0⟩,⟨20,0⟩⟩, ⟨⟨0,1⟩,⟨20,1⟩⟩, ⟨⟨0,2⟩,⟨20,2⟩⟩, ⟨⟨0,3⟩,⟨20,3⟩⟩, ⟨⟨0,4⟩,⟨20,4⟩⟩,
       ⟨⟨0,5⟩,⟨20,5⟩⟩, ⟨⟨0,6⟩,⟨20,6⟩⟩, ⟨⟨0,7⟩,⟨20,7⟩⟩, ⟨⟨0,8⟩,⟨20,8⟩⟩, ⟨⟨0,9⟩,⟨20,9⟩⟩,
       ⟨⟨0,10⟩,⟨20,10⟩⟩] := by
  rw [generate_horiz_run (by norm_num) (by norm_num)
    (normalizeAngle_eq_self (by norm_num) (by norm_num))]
  dsimp only
  rw [show ⌊((10:ℚ) - 0) / 1⌋ = 10 by norm_num]
  rw [show ((10:ℤ).toNat + 1) = 11 by rfl]
  norm_num [List.range_succ]

/-- Evaluation of the generator at angle 0, step 3 on the hard-coded
rectangle: the last line sits at `y = 9`, not at the top edge. -/
theorem gen_rect_angle0_step3_eval :
    generateHatchLines (K := ℚ) ⟨0,0⟩ ⟨20,10⟩ 0 3 ⟨1,0⟩ 0 = Except.ok
      [⟨⟨0,0⟩,⟨20,0⟩⟩, ⟨⟨0,3⟩,⟨20,3⟩⟩, ⟨⟨0,6⟩,⟨20,6⟩⟩, ⟨⟨0,9⟩,⟨20,9⟩⟩] := by
  rw [generate_horiz_run (by norm_num) (by norm_num)
    (normalizeAngle_eq_self (by norm_num) (by norm_num))]
  dsimp only
  rw [show ⌊((10:ℚ) - 0) / 3⌋ = 3 by norm_num]
  rw [show ((3:ℤ).toNat + 1) = 4 by rfl]
  norm_num [List.range_succ]

/-- Evaluation of the generator at angle 180, step 3 on the hard-coded
rectangle: lines are enumerated top-down starting at `y = 10`. -/
theorem gen_rect_angle180_step3_eval :
    generateHatchLines (K := ℚ) ⟨0,0⟩ ⟨20,10⟩ 180 3 ⟨1,0⟩ 0 = Except.ok
      [⟨⟨0,10⟩,⟨20,10⟩⟩, ⟨⟨0,7⟩,⟨20,7⟩⟩, ⟨⟨0,4⟩,⟨20,4⟩⟩, ⟨⟨0,1⟩,⟨20,1⟩⟩] := by
  rw [generate_180 (by norm_num) (normalizeAngle_eq_self (by norm_num) (by norm_num))]
  dsimp only
  rw [show ⌊((10:ℚ) - 0) / 3⌋ = 3 by norm_num]
  rw [show (((3:ℤ) + 2)).toNat = 5 by rfl]
  rw [horizDown_run (by norm_num) 3 5 10 (by norm_num) (by push_cast; norm_num)
    (by push_cast; norm_num)]
  norm_num [List.range_succ]

end ConcreteEval

section RealClipEval

/-- The first 45° candidate on the square `(0,0)-(10,10)` is clipped to the
degenerate corner segment at `(10, 0)`. -/
theorem clip_first_cand45 : clipLine (⟨⟨5,-5⟩,⟨15,5⟩⟩ : Line_2 ℝ) ⟨0,0⟩ ⟨10,10⟩
    = some (true, ⟨⟨10,0⟩,⟨10,0⟩⟩) := by
  have hoc1 : computeOutCode (5:ℝ) (-5) ⟨0,0⟩ ⟨10,10⟩ = 4 := by unfold computeOutCode; norm_num
  have hoc2 : computeOutCode (15:ℝ) (5:ℝ) ⟨0,0⟩ ⟨10,10⟩ = 2 := by unfold computeOutCode; norm_num
  have hoc3 : computeOutCode (10:ℝ) (0:ℝ) ⟨0,0⟩ ⟨10,10⟩ = 0 := by unfold computeOutCode; norm_num
  have hloop : clipLoop (⟨0,0⟩ : Point_2 ℝ) ⟨10,10⟩ 5 5 (-5) 15 5
      = some (ClipResult.accepted 10 0 10 0) := by
    rw [clipLoop_trim_fst 4 (by rw [hoc1, hoc2]; decide) (by rw [hoc1, hoc2]; decide)
      (by rw [hoc1]; decide)]
    rw [hoc1, show trimPoint (5:ℝ) (-5) 15 5 ⟨0,0⟩ ⟨10,10⟩ 4 = (10, 0) by
      unfold trimPoint; rw [if_neg (by decide), if_pos (by decide)]; norm_num]
    dsimp only
    rw [clipLoop_trim_snd 3 (by rw [hoc3, hoc2]; decide) (by rw [hoc3, hoc2]; decide) hoc3]
    rw [hoc2, show trimPoint (10:ℝ) (0:ℝ) 15 5 ⟨0,0⟩ ⟨10,10⟩ 2 = (10, 0) by
      unfold trimPoint; rw [if_neg (by decide), if_neg (by decide), if_pos (by decide)]; norm_num]
    dsimp only
    rw [clipLoop_accept 2 (by rw [hoc3]; decide)]
  unfold clipLine
  dsimp only
  rw [hloop]

/-- The first 225° candidate on the square `(0,0)-(10,10)` is clipped to the
degenerate corner segment at `(0, 10)`. -/
theorem clip_first_cand225 : clipLine (⟨⟨5,15⟩,⟨-5,5⟩⟩ : Line_2 ℝ) ⟨0,0⟩ ⟨10,10⟩
    = some (true, ⟨⟨0,10⟩,⟨0,10⟩⟩) := by
  have hoc1 : computeOutCode (5:ℝ) (15:ℝ) ⟨0,0⟩ ⟨10,10⟩ = 8 := by unfold computeOutCode; norm_num
  have hoc2 : computeOutCode (-5:ℝ) (5:ℝ) ⟨0,0⟩ ⟨10,10⟩ = 1 := by unfold computeOutCode; norm_num
  have hoc3 : computeOutCode (0:ℝ) (10:ℝ) ⟨0,0⟩ ⟨10,10⟩ = 0 := by unfold computeOutCode; norm_num
  have hloop : clipLoop (⟨0,0⟩ : Point_2 ℝ) ⟨10,10⟩ 5 5 15 (-5) 5
      = some (ClipResult.accepted 0 10 0 10) := by
    rw [clipLoop_trim_fst 4 (by rw [hoc1, hoc2]; decide) (by rw [hoc1, hoc2]; decide)
      (by rw [hoc1]; decide)]
    rw [hoc1, show trimPoint (5:ℝ) (15:ℝ) (-5) 5 ⟨0,0⟩ ⟨10,10⟩ 8 = (0, 10) by
      unfold trimPoint; rw [if_pos (by decide)]; norm_num]
    dsimp only
    rw [clipLoop_trim_snd 3 (by rw [hoc3, hoc2]; decide) (by rw [hoc3, hoc2]; decide) hoc3]
    rw [hoc2, show trimPoint (0:ℝ) (10:ℝ) (-5) 5 ⟨0,0⟩ ⟨10,10⟩ 1 = (0, 10) by
      unfold trimPoint
      rw [if_neg (by decide), if_neg (by decide), if_neg (by decide)]
      norm_num]
    dsimp only
    rw [clipLoop_accept 2 (by rw [hoc3]; decide)]
  unfold clipLine
  dsimp only
  rw [hloop]

end RealClipEval

section Claims

/-- C1: For every rectangle with `bottomLeft.x ≤ topRight.x` and
`bottomLeft.y ≤ topRight.y`, every line in the hatch pattern returned by the
generator has both endpoints inside or on the rectangle boundary, and in
particular whenever `clipLine` returns `true` both endpoints of the trimmed
line satisfy these bounds (exactly — the floating tolerance ε is not needed
in the exact-arithmetic model). -/
theorem hatch_lines_contained {K : Type} [LinearOrderedField K] [FloorRing K]
    (bl tr dir : Point_2 K) (angleDegrees step diagonal : K)
    (hx : bl.x ≤ tr.x) (hy : bl.y ≤ tr.y) (L : List (Line_2 K))
    (hL : generateHatchLines bl tr angleDegrees step dir diagonal = Except.ok L) :
    (∀ l ∈ L,
      (bl.x ≤ l.start.x ∧ l.start.x ≤ tr.x ∧ bl.y ≤ l.start.y ∧ l.start.y ≤ tr.y) ∧
        (bl.x ≤ l.endPt.x ∧ l.endPt.x ≤ tr.x ∧ bl.y ≤ l.endPt.y ∧ l.endPt.y ≤ tr.y)) ∧
    (∀ a b : Line_2 K, clipLine a bl tr = some (true, b) →
      (bl.x ≤ b.start.x ∧ b.start.x ≤ tr.x ∧ bl.y ≤ b.start.y ∧ b.start.y ≤ tr.y) ∧
        (bl.x ≤ b.endPt.x ∧ b.endPt.x ≤ tr.x ∧ bl.y ≤ b.endPt.y ∧ b.endPt.y ≤ tr.y)) := by
  constructor
  · intro l hl
    unfold generateHatchLines at hL
    split_ifs at hL with h1 h2 h3 h4
    · have hstep : 0 < step := not_le.mp h1
      injection hL with hEq
      subst hEq
      obtain ⟨y, rfl, hy1, hy2⟩ := horizUp_mem hstep _ bl.y l hl
      exact ⟨⟨le_refl bl.x, hx, hy1, hy2⟩, ⟨hx, le_refl tr.x, hy1, hy2⟩⟩
    · have hstep : 0 < step := not_le.mp h1
      injection hL with hEq
      subst hEq
      obtain ⟨y, rfl, hy1, hy2⟩ := horizDown_mem hstep _ tr.y l hl
      exact ⟨⟨le_refl bl.x, hx, hy1, hy2⟩, ⟨hx, le_refl tr.x, hy1, hy2⟩⟩
    · have hstep : 0 < step := not_le.mp h1
      injection hL with hEq
      subst hEq
      obtain ⟨x, rfl, hx1, hx2⟩ := vertLoop_mem hstep _ bl.x l hl
      exact ⟨⟨hx1, hx2, le_refl bl.y, hy⟩, ⟨hx1, hx2, hy, le_refl tr.y⟩⟩
    · injection hL with hEq
      subst hEq
      obtain ⟨cand, hc⟩ := genLoop_mem _ _ l hl
      exact clipLine_accept_bounds hc
  · intro a b hab
    exact clipLine_accept_bounds hab

theorem hatch_lines_contained_witness :
    (((0:ℚ) ≤ 0 ∧ (0:ℚ) ≤ 20 ∧ (0:ℚ) ≤ 0 ∧ (0:ℚ) ≤ 10) ∧
      ((0:ℚ) ≤ 20 ∧ (20:ℚ) ≤ 20 ∧ (0:ℚ) ≤ 0 ∧ (0:ℚ) ≤ 10)) :=
  (hatch_lines_contained ⟨0,0⟩ ⟨20,10⟩ ⟨1,0⟩ 0 1 0 (by norm_num) (by norm_num) _
      gen_rect_angle0_eval).1 ⟨⟨0,0⟩,⟨20,0⟩⟩ (by decide)

/-- C2: For every input line and every rectangle with
`bottomLeft.x ≤ topRight.x` and `bottomLeft.y ≤ topRight.y`, the iterative
trimming loop of `clipLine` terminates: fuel 5 (at most 4 trim iterations
followed by the terminal accept/reject check) always reaches a result, so
`clipLine` itself never returns the non-termination marker. -/
theorem clip_loop_terminates {K : Type} [LinearOrderedField K]
    (bl tr : Point_2 K) (hx : bl.x ≤ tr.x) (hy : bl.y ≤ tr.y) (x0 y0 x1 y1 : K) :
    (∃ r, clipLoop bl tr 5 x0 y0 x1 y1 = some r) ∧
      ∀ l : Line_2 K, clipLine l bl tr ≠ none := by
  refine ⟨clipLoop_fuel_five hx hy x0 y0 x1 y1, ?_⟩
  intro l hnone
  obtain ⟨r, hr⟩ := clipLoop_fuel_five hx hy l.start.x l.start.y l.endPt.x l.endPt.y
  unfold clipLine at hnone
  rw [hr] at hnone
  cases r with
  | accepted a b c d => exact absurd hnone (by simp)
  | rejected => exact absurd hnone (by simp)

theorem clip_loop_terminates_witness :
    (clipLoop (⟨0,0⟩ : Point_2 ℚ) ⟨20,10⟩ 5 (-3) 7 44 5).isSome = true := by
  obtain ⟨r, hr⟩ := (clip_loop_terminates (⟨0,0⟩ : Point_2 ℚ) ⟨20,10⟩ (by norm_num)
    (by norm_num) (-3) 7 44 5).1
  rw [hr]
  rfl

/-- C3: At every trim iteration of the clip loop (outcodes not both zero and
with zero bitwise AND), the interpolation divisor is nonzero: if the selected
outcode has the TOP or BOTTOM bit set then `y1 - y0 ≠ 0`, and if it has the
RIGHT or LEFT bit set then `x1 - x0 ≠ 0`, so the division-by-zero branch is
unreachable. -/
theorem trim_divisor_nonzero {K : Type} [LinearOrderedField K]
    (bl tr : Point_2 K) (x0 y0 x1 y1 : K)
    (h_or : computeOutCode x0 y0 bl tr ||| computeOutCode x1 y1 bl tr ≠ 0)
    (h_and : computeOutCode x0 y0 bl tr &&& computeOutCode x1 y1 bl tr = 0) :
    ((pickOutCode (computeOutCode x0 y0 bl tr) (computeOutCode x1 y1 bl tr)) &&& 8 ≠ 0 ∨
      (pickOutCode (computeOutCode x0 y0 bl tr) (computeOutCode x1 y1 bl tr)) &&& 4 ≠ 0 →
        y1 - y0 ≠ 0) ∧
    ((pickOutCode (computeOutCode x0 y0 bl tr) (computeOutCode x1 y1 bl tr)) &&& 2 ≠ 0 ∨
      (pickOutCode (computeOutCode x0 y0 bl tr) (computeOutCode x1 y1 bl tr)) &&& 1 ≠ 0 →
        x1 - x0 ≠ 0) := by
  have l0 : computeOutCode x0 y0 bl tr < 16 := computeOutCode_lt_16 x0 y0
  have l1 : computeOutCode x1 y1 bl tr < 16 := computeOutCode_lt_16 x1 y1
  have hnand : ∀ i < 4, ¬((computeOutCode x0 y0 bl tr).testBit i = true ∧
      (computeOutCode x1 y1 bl tr).testBit i = true) :=
    (land_eq_zero_iff_16 _ l0 _ l1).mp h_and
  by_cases h0 : computeOutCode x0 y0 bl tr ≠ 0
  · have hpick : pickOutCode (computeOutCode x0 y0 bl tr) (computeOutCode x1 y1 bl tr)
        = computeOutCode x0 y0 bl tr := if_pos h0
    rw [hpick]
    constructor
    · rintro (hb | hb)
      · obtain ⟨hnb, hgt⟩ := (testBit3_outCode x0 y0).mp ((land_eight_ne _ l0).mp hb)
        have hb1' : ¬(¬y1 < bl.y ∧ tr.y < y1) := by
          intro hc
          exact hnand 3 (by norm_num) ⟨(testBit3_outCode x0 y0).mpr ⟨hnb, hgt⟩,
            (testBit3_outCode x1 y1).mpr hc⟩
        apply sub_ne_zero.mpr
        intro he
        rcases not_and_or.mp hb1' with hc | hc
        · push_neg at hc
          subst he
          exact hnb hc
        · push_neg at hc
          subst he
          linarith
      · have hlt := (testBit2_outCode x0 y0).mp ((land_four_ne _ l0).mp hb)
        have hb1' : ¬(y1 < bl.y) := by
          intro hc
          exact hnand 2 (by norm_num) ⟨(testBit2_outCode x0 y0).mpr hlt,
            (testBit2_outCode x1 y1).mpr hc⟩
        apply sub_ne_zero.mpr
        intro he
        subst he
        exact hb1' hlt
    · rintro (hb | hb)
      · obtain ⟨hnb, hgt⟩ := (testBit1_outCode x0 y0).mp ((land_two_ne _ l0).mp hb)
        have hb1' : ¬(¬x1 < bl.x ∧ tr.x < x1) := by
          intro hc
          exact hnand 1 (by norm_num) ⟨(testBit1_outCode x0 y0).mpr ⟨hnb, hgt⟩,
            (testBit1_outCode x1 y1).mpr hc⟩
        apply sub_ne_zero.mpr
        intro he
        rcases not_and_or.mp hb1' with hc | hc
        · push_neg at hc
          subst he
          exact hnb hc
        · push_neg at hc
          subst he
          linarith
      · have hlt := (testBit0_outCode x0 y0).mp ((land_one_ne _ l0).mp hb)
        have hb1' : ¬(x1 < bl.x) := by
          intro hc
          exact hnand 0 (by norm_num) ⟨(testBit0_outCode x0 y0).mpr hlt,
            (testBit0_outCode x1 y1).mpr hc⟩
        apply sub_ne_zero.mpr
        intro he
        subst he
        exact hb1' hlt
  · push_neg at h0
    have h1 : computeOutCode x1 y1 bl tr ≠ 0 := by
      intro hc
      exact h_or (by rw [h0, hc]; decide)
    have hpick : pickOutCode (computeOutCode x0 y0 bl tr) (computeOutCode x1 y1 bl tr)
        = computeOutCode x1 y1 bl tr := if_neg (by simp [h0])
    rw [hpick]
    obtain ⟨hi1, hi2, hi3, hi4⟩ := (outCode_eq_zero x0 y0).mp h0
    constructor
    · rintro (hb | hb)
      · obtain ⟨hnb, hgt⟩ := (testBit3_outCode x1 y1).mp ((land_eight_ne _ l1).mp hb)
        apply sub_ne_zero.mpr
        intro he
        subst he
        linarith
      · have hlt := (testBit2_outCode x1 y1).mp ((land_four_ne _ l1).mp hb)
        apply sub_ne_zero.mpr
        intro he
        subst he
        linarith
    · rintro (hb | hb)
      · obtain ⟨hnb, hgt⟩ := (testBit1_outCode x1 y1).mp ((land_two_ne _ l1).mp hb)
        apply sub_ne_zero.mpr
        intro he
        subst he
        linarith
      · have hlt := (testBit0_outCode x1 y1).mp ((land_one_ne _ l1).mp hb)
        apply sub_ne_zero.mpr
        intro he
        subst he
        linarith

theorem trim_divisor_nonzero_witness : ((5:ℚ) - 15 ≠ 0) ∧ ((5:ℚ) - 25 ≠ 0) :=
  ⟨(trim_divisor_nonzero (⟨0,0⟩ : Point_2 ℚ) ⟨20,10⟩ 25 15 5 5 (by decide) (by decide)).1
      (Or.inl (by decide)),
    (trim_divisor_nonzero (⟨0,0⟩ : Point_2 ℚ) ⟨20,10⟩ 25 15 5 5 (by decide) (by decide)).2
      (Or.inl (by decide))⟩

end Claims

section ClaimsB

/-- C4 (counterexample): with step 3 on the rectangle `(0,0)-(20,10)` the
0° pattern enumerates `y = 0, 3, 6, 9` while the 180° pattern enumerates
`y = 10, 7, 4, 1`; the 180° output is not the reverse of the 0° output
(the sets of lines differ since 3 does not divide the height 10). -/
theorem angle180_not_reverse_counterexample :
    generateHatchLines (K := ℚ) ⟨0,0⟩ ⟨20,10⟩ 0 3 ⟨1,0⟩ 0
      = Except.ok [⟨⟨0,0⟩,⟨20,0⟩⟩, ⟨⟨0,3⟩,⟨20,3⟩⟩, ⟨⟨0,6⟩,⟨20,6⟩⟩, ⟨⟨0,9⟩,⟨20,9⟩⟩] ∧
    generateHatchLines (K := ℚ) ⟨0,0⟩ ⟨20,10⟩ 180 3 ⟨1,0⟩ 0
      = Except.ok [⟨⟨0,10⟩,⟨20,10⟩⟩, ⟨⟨0,7⟩,⟨20,7⟩⟩, ⟨⟨0,4⟩,⟨20,4⟩⟩, ⟨⟨0,1⟩,⟨20,1⟩⟩] ∧
    ([⟨⟨0,10⟩,⟨20,10⟩⟩, ⟨⟨0,7⟩,⟨20,7⟩⟩, ⟨⟨0,4⟩,⟨20,4⟩⟩, ⟨⟨0,1⟩,⟨20,1⟩⟩] : List (Line_2 ℚ))
      ≠ [⟨⟨0,0⟩,⟨20,0⟩⟩, ⟨⟨0,3⟩,⟨20,3⟩⟩, ⟨⟨0,6⟩,⟨20,6⟩⟩, ⟨⟨0,9⟩,⟨20,9⟩⟩].reverse :=
  ⟨gen_rect_angle0_step3_eval, gen_rect_angle180_step3_eval, by decide⟩

/-- C4 (amended): when the step exactly divides the rectangle height
(`tr.y - bl.y = k * step` for a natural `k`), the generator at normalized
angle 180 produces exactly the 0°-pattern in reverse order. -/
theorem angle180_reverse_of_step_divides {K : Type} [LinearOrderedField K] [FloorRing K]
    (bl tr dir : Point_2 K) (a0 a180 step diagonal : K) (k : Nat)
    (hstep : 0 < step) (hk : tr.y - bl.y = (k : K) * step)
    (ha0 : normalizeAngle a0 = 0) (ha180 : normalizeAngle a180 = 180) :
    ∃ L : List (Line_2 K),
      generateHatchLines bl tr a0 step dir diagonal = Except.ok L ∧
        generateHatchLines bl tr a180 step dir diagonal = Except.ok L.reverse :=
  generate_180_reverse hstep hk ha0 ha180

theorem angle180_reverse_of_step_divides_witness :
    ∃ L : List (Line_2 ℚ),
      generateHatchLines (K := ℚ) ⟨0,0⟩ ⟨20,10⟩ 0 2 ⟨1,0⟩ 0 = Except.ok L ∧
        generateHatchLines (K := ℚ) ⟨0,0⟩ ⟨20,10⟩ 180 2 ⟨1,0⟩ 0 = Except.ok L.reverse :=
  angle180_reverse_of_step_divides ⟨0,0⟩ ⟨20,10⟩ ⟨1,0⟩ 0 180 2 0 5 (by norm_num)
    (by push_cast; norm_num)
    (normalizeAngle_eq_self (by norm_num) (by norm_num))
    (normalizeAngle_eq_self (by norm_num) (by norm_num))

/-- C5 (counterexample): on the square `(0,0)-(10,10)` with step 1 the hatch
pattern generated at angle 45 differs from the pattern generated at angle
225 already in its first line: the 45° pattern starts with the corner
segment `(10,0)-(10,0)` while the 225° pattern starts with `(0,10)-(0,10)`
(each 225° candidate is the endpoint-swap of the 45° candidate at the
mirrored offset, and the offsets are not symmetric since the step does not
divide the diagonal). -/
theorem pattern45_ne_pattern225 :
    generateHatchLinesReal ⟨0,0⟩ ⟨10,10⟩ 45 1 ≠ generateHatchLinesReal ⟨0,0⟩ ⟨10,10⟩ 225 1 := by
  have s2 : Real.sqrt 2 ^ 2 = 2 := Real.sq_sqrt (by norm_num)
  have hn45 : normalizeAngle (45:ℝ) = 45 := normalizeAngle_eq_self (by norm_num) (by norm_num)
  have hn225 : normalizeAngle (225:ℝ) = 225 := normalizeAngle_eq_self (by norm_num) (by norm_num)
  have hcos45 : Real.cos (degreesToRadians (45:ℝ)) = Real.sqrt 2 / 2 := by
    rw [show degreesToRadians (45:ℝ) = Real.pi / 4 by unfold degreesToRadians; ring]
    exact Real.cos_pi_div_four
  have hsin45 : Real.sin (degreesToRadians (45:ℝ)) = Real.sqrt 2 / 2 := by
    rw [show degreesToRadians (45:ℝ) = Real.pi / 4 by unfold degreesToRadians; ring]
    exact Real.sin_pi_div_four
  have hcos225 : Real.cos (degreesToRadians (225:ℝ)) = -(Real.sqrt 2 / 2) := by
    rw [show degreesToRadians (225:ℝ) = Real.pi + Real.pi / 4 by unfold degreesToRadians; ring]
    rw [Real.cos_add, Real.cos_pi, Real.sin_pi, Real.cos_pi_div_four]
    ring
  have hsin225 : Real.sin (degreesToRadians (225:ℝ)) = -(Real.sqrt 2 / 2) := by
    rw [show degreesToRadians (225:ℝ) = Real.pi + Real.pi / 4 by unfold degreesToRadians; ring]
    rw [Real.sin_add, Real.cos_pi, Real.sin_pi, Real.sin_pi_div_four]
    ring
  have hdiag : Real.sqrt (((10:ℝ) - 0) * ((10:ℝ) - 0) + ((10:ℝ) - 0) * ((10:ℝ) - 0))
      = 10 * Real.sqrt 2 := by
    rw [show ((10:ℝ) - 0) * ((10:ℝ) - 0) + ((10:ℝ) - 0) * ((10:ℝ) - 0) = 10 ^ 2 * 2 by norm_num]
    rw [Real.sqrt_mul (by positivity), Real.sqrt_sq (by norm_num)]
  have hsqrt2nn : (0:ℝ) ≤ 10 * Real.sqrt 2 := by positivity
  obtain ⟨m, hm⟩ : ∃ m, (⌊(10 * Real.sqrt 2) / 1⌋ + 2).toNat = m + 1 := by
    have hfl : (0:ℤ) ≤ ⌊(10 * Real.sqrt 2) / 1⌋ := Int.floor_nonneg.mpr (by positivity)
    exact ⟨(⌊(10 * Real.sqrt 2) / 1⌋ + 2).toNat - 1, by omega⟩
  have hoffset : -(10 * Real.sqrt 2 / 2) ≤ 10 * Real.sqrt 2 / 2 := by linarith
  have hcand45 : candidateLine (⟨5,5⟩ : Point_2 ℝ) ⟨Real.sqrt 2 / 2, Real.sqrt 2 / 2⟩
      (10 * Real.sqrt 2) (-(10 * Real.sqrt 2 / 2)) = ⟨⟨5,-5⟩,⟨15,5⟩⟩ := by
    unfold candidateLine
    congr 1 <;> congr 1 <;> first
      | ring1
      | linear_combination (5:ℝ) * s2
      | linear_combination (-5:ℝ) * s2
  have hcand225 : candidateLine (⟨5,5⟩ : Point_2 ℝ) ⟨-(Real.sqrt 2 / 2), -(Real.sqrt 2 / 2)⟩
      (10 * Real.sqrt 2) (-(10 * Real.sqrt 2 / 2)) = ⟨⟨5,15⟩,⟨-5,5⟩⟩ := by
    unfold candidateLine
    congr 1 <;> congr 1 <;> first
      | ring1
      | linear_combination (5:ℝ) * s2
      | linear_combination (-5:ℝ) * s2
  unfold generateHatchLinesReal
  dsimp only
  rw [hn45, hn225, hcos45, hsin45, hcos225, hsin225, hdiag]
  rw [generate_general (by norm_num) (by rw [hn45]; norm_num) (by rw [hn45]; norm_num)
    (by rw [hn45]; norm_num)]
  rw [generate_general (by norm_num) (by rw [hn225]; norm_num) (by rw [hn225]; norm_num)
    (by rw [hn225]; norm_num)]
  dsimp only
  rw [show ((0:ℝ) + 10) / 2 = 5 by norm_num, hm]
  rw [genLoop_cons m hoffset (by rw [hcand45]; exact clip_first_cand45)]
  rw [genLoop_cons m hoffset (by rw [hcand225]; exact clip_first_cand225)]
  intro hcontra
  simp only [Except.ok.injEq, List.cons.injEq, Line_2.mk.injEq, Point_2.mk.injEq] at hcontra
  norm_num at hcontra

/-- C5 (amended): the candidate line of the general branch at angle 225 with
offset `o` is exactly the endpoint-swapped candidate at angle 45 with the
mirrored offset `-o` (cos 225° = -cos 45°, sin 225° = -sin 45°); the two
patterns are related by this swap and mirror, not identical. -/
theorem candidate225_swap_of_candidate45 (center : Point_2 ℝ) (diagonal o : ℝ) :
    candidateLine center
      ⟨Real.cos (degreesToRadians (normalizeAngle 225)),
        Real.sin (degreesToRadians (normalizeAngle 225))⟩ diagonal o
    = ⟨(candidateLine center
          ⟨Real.cos (degreesToRadians (normalizeAngle 45)),
            Real.sin (degreesToRadians (normalizeAngle 45))⟩ diagonal (-o)).endPt,
        (candidateLine center
          ⟨Real.cos (degreesToRadians (normalizeAngle 45)),
            Real.sin (degreesToRadians (normalizeAngle 45))⟩ diagonal (-o)).start⟩ := by
  have hn45 : normalizeAngle (45:ℝ) = 45 := normalizeAngle_eq_self (by norm_num) (by norm_num)
  have hn225 : normalizeAngle (225:ℝ) = 225 := normalizeAngle_eq_self (by norm_num) (by norm_num)
  have hcos45 : Real.cos (degreesToRadians (45:ℝ)) = Real.sqrt 2 / 2 := by
    rw [show degreesToRadians (45:ℝ) = Real.pi / 4 by unfold degreesToRadians; ring]
    exact Real.cos_pi_div_four
  have hsin45 : Real.sin (degreesToRadians (45:ℝ)) = Real.sqrt 2 / 2 := by
    rw [show degreesToRadians (45:ℝ) = Real.pi / 4 by unfold degreesToRadians; ring]
    exact Real.sin_pi_div_four
  have hcos225 : Real.cos (degreesToRadians (225:ℝ)) = -(Real.sqrt 2 / 2) := by
    rw [show degreesToRadians (225:ℝ) = Real.pi + Real.pi / 4 by unfold degreesToRadians; ring]
    rw [Real.cos_add, Real.cos_pi, Real.sin_pi, Real.cos_pi_div_four]
    ring
  have hsin225 : Real.sin (degreesToRadians (225:ℝ)) = -(Real.sqrt 2 / 2) := by
    rw [show degreesToRadians (225:ℝ) = Real.pi + Real.pi / 4 by unfold degreesToRadians; ring]
    rw [Real.sin_add, Real.cos_pi, Real.sin_pi, Real.sin_pi_div_four]
    ring
  rw [hn45, hn225, hcos45, hsin45, hcos225, hsin225]
  unfold candidateLine
  dsimp only
  congr 1 <;> congr 1 <;> ring1

/-- C6: at normalized angle 0 (and, since `fmod(360, 360) = 0`, also for raw
input 360) the generator emits exactly the horizontal lines
`(bl.x, y) → (tr.x, y)` at `y = bl.y + i*step` while `y ≤ tr.y`, with no
clipping; in particular for the rectangle `(0,0)-(20,10)` with angle 0 and
step 1 it returns exactly the 11 lines `(0,y)-(20,y)`, `y = 0, …, 10`. -/
theorem angle0_horizontal_lines :
    (∀ {K : Type} [LinearOrderedField K] [FloorRing K] (bl tr dir : Point_2 K)
      (angleDegrees step diagonal : K), 0 < step → bl.y ≤ tr.y →
      normalizeAngle angleDegrees = 0 →
      generateHatchLines bl tr angleDegrees step dir diagonal
        = Except.ok ((List.range (⌊(tr.y - bl.y) / step⌋.toNat + 1)).map
            fun (i : Nat) => ⟨⟨bl.x, bl.y + (i : K) * step⟩, ⟨tr.x, bl.y + (i : K) * step⟩⟩)) ∧
    generateHatchLines (K := ℚ) ⟨0,0⟩ ⟨20,10⟩ 0 1 ⟨1,0⟩ 0 = Except.ok
      [⟨⟨0,0⟩,⟨20,0⟩⟩, ⟨⟨0,1⟩,⟨20,1⟩⟩, ⟨⟨0,2⟩,⟨20,2⟩⟩, ⟨⟨0,3⟩,⟨20,3⟩⟩, ⟨⟨0,4⟩,⟨20,4⟩⟩,
       ⟨⟨0,5⟩,⟨20,5⟩⟩, ⟨⟨0,6⟩,⟨20,6⟩⟩, ⟨⟨0,7⟩,⟨20,7⟩⟩, ⟨⟨0,8⟩,⟨20,8⟩⟩, ⟨⟨0,9⟩,⟨20,9⟩⟩,
       ⟨⟨0,10⟩,⟨20,10⟩⟩] :=
  ⟨fun bl tr dir angleDegrees step diagonal h1 h2 h3 => generate_horiz_run h1 h2 h3,
    gen_rect_angle0_eval⟩

theorem angle0_horizontal_lines_witness :
    generateHatchLines (K := ℚ) ⟨0,0⟩ ⟨30,7⟩ 0 2 ⟨1,0⟩ 0
      = Except.ok ((List.range (⌊((7:ℚ) - 0) / 2⌋.toNat + 1)).map
          fun (i : Nat) => ⟨⟨0, 0 + (i : ℚ) * 2⟩, ⟨30, 0 + (i : ℚ) * 2⟩⟩) :=
  angle0_horizontal_lines.1 ⟨0,0⟩ ⟨30,7⟩ ⟨1,0⟩ 0 2 0 (by norm_num) (by norm_num)
    (normalizeAngle_eq_self (by norm_num) (by norm_num))

/-- C7: for every step ≤ 0 the generation fails with the invalid-argument
error before any line is generated — the result is the error value, never a
list of lines. -/
theorem step_nonpositive_error {K : Type} [LinearOrderedField K] [FloorRing K]
    (bl tr dir : Point_2 K) (angleDegrees step diagonal : K) (h : step ≤ 0) :
    generateHatchLines bl tr angleDegrees step dir diagonal
      = Except.error ("step must be greater than zero") :=
  generate_error h

theorem step_nonpositive_error_witness :
    generateHatchLines (K := ℚ) ⟨0,0⟩ ⟨20,10⟩ 45 0 ⟨1,0⟩ 0
        = Except.error ("step must be greater than zero") ∧
      generateHatchLines (K := ℚ) ⟨0,0⟩ ⟨20,10⟩ 45 (-1) ⟨1,0⟩ 0
        = Except.error ("step must be greater than zero") :=
  ⟨step_nonpositive_error ⟨0,0⟩ ⟨20,10⟩ ⟨1,0⟩ 45 0 0 (by norm_num),
    step_nonpositive_error ⟨0,0⟩ ⟨20,10⟩ ⟨1,0⟩ 45 (-1) 0 (by norm_num)⟩

/-- C8: clipping is idempotent — for every line whose two endpoints already
lie inside or on the rectangle (both outcodes INSIDE), `clipLine` returns
`true` and leaves the line unchanged. -/
theorem clip_idempotent {K : Type} [LinearOrderedField K]
    (bl tr : Point_2 K) (l : Line_2 K)
    (h0 : computeOutCode l.start.x l.start.y bl tr = 0)
    (h1 : computeOutCode l.endPt.x l.endPt.y bl tr = 0) :
    clipLine l bl tr = some (true, l) := by
  obtain ⟨a1, a2, a3, a4⟩ := (outCode_eq_zero _ _).mp h0
  obtain ⟨b1, b2, b3, b4⟩ := (outCode_eq_zero _ _).mp h1
  exact clipLine_inside_id l a1 a2 a3 a4 b1 b2 b3 b4

theorem clip_idempotent_witness :
    clipLine (⟨⟨5,5⟩,⟨15,9⟩⟩ : Line_2 ℚ) ⟨0,0⟩ ⟨20,10⟩ = some (true, ⟨⟨5,5⟩,⟨15,9⟩⟩) :=
  clip_idempotent ⟨0,0⟩ ⟨20,10⟩ ⟨⟨5,5⟩,⟨15,9⟩⟩ (by decide) (by decide)

/-- C9: angle normalization maps every input into `[0, 360)`: truncating
modulo by 360 followed by adding 360 when the result is negative always
lands in the half-open interval. -/
theorem normalize_angle_range {K : Type} [LinearOrderedField K] [FloorRing K] (x : K) :
    0 ≤ normalizeAngle x ∧ normalizeAngle x < 360 :=
  normalizeAngle_mem x

/-- C10: atomicity of rejection — when `clipLine` returns `false`, the
returned line is exactly the line passed in: the endpoints are written back
only on the accept path. -/
theorem clip_reject_unchanged {K : Type} [LinearOrderedField K]
    (bl tr : Point_2 K) {l l' : Line_2 K}
    (h : clipLine l bl tr = some (false, l')) : l' = l :=
  clipLine_reject_id h

theorem clip_reject_unchanged_witness :
    (⟨⟨30,5⟩,⟨40,5⟩⟩ : Line_2 ℚ) = ⟨⟨30,5⟩,⟨40,5⟩⟩ :=
  clip_reject_unchanged (⟨0,0⟩ : Point_2 ℚ) ⟨20,10⟩ (by decide)

end ClaimsB
